import Mathlib

/-!
Shallow embedding of the `@exortek/nosql-sanitize-core` sanitization engine
(`src/sanitizers.js`, `src/constants.js` and the helper functions
`isEmail` / `cleanUrl` / `extractMimeType`), together with theorems checking
the specification's claims against the embedded code.

Modelling conventions:
* JavaScript runtime values are the inductive `JSValue`; a plain object is a
  list of key/value pairs in own-key enumeration order.
* Machine strings are Lean `String`s, manipulated through their character
  lists; JavaScript `trim` / `toLowerCase` / `slice(0, n)` are embedded as
  explicit character-list operations.
* The precompiled combined pattern (`opts._combinedPattern`) is modelled as a
  character predicate, which is exact for the default pattern list
  `[/\$/g, /[\u0000-\u001F\u007F-\u009F]/g]` (both alternatives are
  single-character classes) and for any caller-supplied list of
  single-character classes.  `String.prototype.replace` with such a global
  pattern replaces each matching character by the replacement string, which is
  inserted literally (replacement strings without `$`-escape sequences).
* `throw new NoSQLSanitizeError(...)` is embedded as `Except.error`.
* Side-effect-only configuration (debug logging, `onSanitize`,
  `customSanitizer`) does not influence the returned value and is omitted
  from the resolved-options model.
-/

namespace NoSQLSanitize

/-- JavaScript runtime values as dispatched on by `sanitizeValue`:
`null`, `undefined`, booleans, numbers, strings, `Date` objects, arrays,
plain objects (own enumerable string-keyed pairs in enumeration order) and
a catch-all for any other object (`RegExp`, class instances, ...). -/
inductive JSValue where
  | vNull
  | vUndefined
  | vBool (b : Bool)
  | vNum (n : Int)
  | vStr (s : String)
  | vDate (t : Int)
  | vArr (elems : List JSValue)
  | vObj (pairs : List (String × JSValue))
  | vOther

/-- `isString` from helpers: `typeof value === 'string'`. -/
def isString : JSValue → Bool
  | .vStr _ => true
  | _ => false

/-- `isArray` from helpers: `Array.isArray(value)`. -/
def isArray : JSValue → Bool
  | .vArr _ => true
  | _ => false

/-- `isPlainObject` from helpers (objects with plain or null prototypes). -/
def isPlainObject : JSValue → Bool
  | .vObj _ => true
  | _ => false

/-- `isPrimitive` from helpers: `value === null || boolean || number`. -/
def isPrimitive : JSValue → Bool
  | .vNull => true
  | .vBool _ => true
  | .vNum _ => true
  | _ => false

/-- `isDate` from helpers: `value instanceof Date`. -/
def isDate : JSValue → Bool
  | .vDate _ => true
  | _ => false

/-- `value == null` in JavaScript: true for both `null` and `undefined`. -/
def isNullish : JSValue → Bool
  | .vNull => true
  | .vUndefined => true
  | _ => false

/-- JavaScript truthiness of a value (`Boolean(v)`); used by
`filter(Boolean)`, `removeEmpty` and the empty-header check. -/
def jsTruthy : JSValue → Bool
  | .vNull => false
  | .vUndefined => false
  | .vBool b => b
  | .vNum n => n != 0
  | .vStr s => s != ""
  | _ => true

/-- Character class `[a-zA-Z0-9._%+-]` (local part of `EMAIL_RE`). -/
def isLocalChar (c : Char) : Bool :=
  c.isAlpha || c.isDigit || c = '.' || c = '_' || c = '%' || c = '+' || c = '-'

/-- Character class `[a-zA-Z0-9.-]` (domain part of `EMAIL_RE`). -/
def isDomainChar (c : Char) : Bool :=
  c.isAlpha || c.isDigit || c = '.' || c = '-'

/-- Split a character list at the first occurrence of `sep`; `none` when
`sep` does not occur.  The first component never contains `sep`. -/
def splitAtFirst (sep : Char) : List Char → Option (List Char × List Char)
  | [] => none
  | c :: rest =>
    if c = sep then some ([], rest)
    else
      match splitAtFirst sep rest with
      | some (l, r) => some (c :: l, r)
      | none => none

/-- Split a character list at the last occurrence of `sep`; the second
component never contains `sep`. -/
def splitAtLast (sep : Char) (cs : List Char) : Option (List Char × List Char) :=
  match splitAtFirst sep cs.reverse with
  | some (l, r) => some (r.reverse, l.reverse)
  | none => none

/-- `String.prototype.indexOf` for a single character: index of the first
occurrence, `-1` when absent. -/
def jsIndexOf (sep : Char) (cs : List Char) : Int :=
  match splitAtFirst sep cs with
  | some (l, _) => l.length
  | none => -1

/-- Anchored test of `EMAIL_RE = /^[a-zA-Z0-9._%+-]+@[a-zA-Z0-9.-]+\.[a-zA-Z]{2,}$/i`.
The local-part class excludes `@`, so the regex's `@` is the first `@` of the
string; the `{2,}` suffix is alphabetic and dot-free, so the regex's final
`\.` is the last dot after the `@` (the `/i` flag is absorbed by the classes
already containing both cases). -/
def emailReTest (cs : List Char) : Bool :=
  match splitAtFirst '@' cs with
  | some (localPart, rest) =>
    !localPart.isEmpty && localPart.all isLocalChar &&
      (match splitAtLast '.' rest with
       | some (dom, tld) =>
         !dom.isEmpty && dom.all isDomainChar &&
           decide (2 ≤ tld.length) && tld.all Char.isAlpha
       | none => false)
  | none => false

/-- `isEmail` on a string:
`val.length > 5 && val.indexOf('@') > 0 && EMAIL_RE.test(val)`. -/
def isEmailStr (s : String) : Bool :=
  let cs := s.toList
  decide (5 < cs.length) && decide (0 < jsIndexOf '@' cs) && emailReTest cs

/-- `isEmail` from helpers: `isString(val) && ...`. -/
def isEmail (v : JSValue) : Bool :=
  match v with
  | .vStr s => isEmailStr s
  | _ => false

/-! Structural Boolean equality on `JSValue`, and the `DecidableEq` instance
built from it. -/

mutual
def beqV : JSValue → JSValue → Bool
  | .vNull, .vNull => true
  | .vUndefined, .vUndefined => true
  | .vBool a, .vBool b => a = b
  | .vNum a, .vNum b => a = b
  | .vStr a, .vStr b => a = b
  | .vDate a, .vDate b => a = b
  | .vArr a, .vArr b => beqVList a b
  | .vObj a, .vObj b => beqVPairs a b
  | .vOther, .vOther => true
  | _, _ => false
def beqVList : List JSValue → List JSValue → Bool
  | [], [] => true
  | x :: xs, y :: ys => beqV x y && beqVList xs ys
  | _, _ => false
def beqVPairs : List (String × JSValue) → List (String × JSValue) → Bool
  | [], [] => true
  | (k1, v1) :: xs, (k2, v2) :: ys => k1 = k2 && beqV v1 v2 && beqVPairs xs ys
  | _, _ => false
end

mutual
theorem beqV_iff (a b : JSValue) : beqV a b = true ↔ a = b := by
  cases a <;> cases b <;> simp [beqV]
  case vArr.vArr x y => exact beqVList_iff x y
  case vObj.vObj x y => exact beqVPairs_iff x y
theorem beqVList_iff (a b : List JSValue) : beqVList a b = true ↔ a = b := by
  cases a <;> cases b <;> simp [beqVList]
  case cons.cons x xs y ys => rw [beqV_iff, beqVList_iff]
theorem beqVPairs_iff (a b : List (String × JSValue)) : beqVPairs a b = true ↔ a = b := by
  cases a <;> cases b <;> simp [beqVPairs]
  case cons.cons x xs y ys =>
    obtain ⟨k1, v1⟩ := x
    obtain ⟨k2, v2⟩ := y
    simp [beqVPairs, beqV_iff, beqVPairs_iff, and_assoc]
end

instance : DecidableEq JSValue := fun a b => decidable_of_iff (beqV a b = true) (beqV_iff a b)

/-! ## Resolved configuration

The model of the options object produced by `resolveOptions`, restricted to
the fields that influence the value returned by the sanitizers.  The sets
`allowedKeys` / `deniedKeys` are carried as lists with membership lookup
(`Set` with string elements uses value equality); `maxDepth = none` models
the `null` sentinel. -/

/-- `stringOptions` group. -/
structure StringOpts where
  trim : Bool
  lowercase : Bool
  maxLength : Option Nat
  deriving Repr, DecidableEq

/-- `arrayOptions` group. -/
structure ArrayOpts where
  filterNull : Bool
  distinct : Bool
  deriving Repr, DecidableEq

/-- Resolved options (value-relevant fields).  `combinedPattern` models the
precompiled `_combinedPattern` as a character predicate (exact for
single-character-class pattern lists such as the default pair). -/
structure Opts where
  replaceWith : String
  removeMatches : Bool
  recursive : Bool
  removeEmpty : Bool
  maxDepth : Option Nat
  combinedPattern : Char → Bool
  allowedKeys : List String
  deniedKeys : List String
  stringOptions : StringOpts
  arrayOptions : ArrayOpts

/-- The default combined pattern `/\$|[\u0000-\u001F\u007F-\u009F]/g`:
a dollar sign, a C0 control character or DEL / a C1 control character. -/
def defaultPattern (c : Char) : Bool :=
  c = '$' || decide (c.toNat ≤ 0x1F) || (decide (0x7F ≤ c.toNat) && decide (c.toNat ≤ 0x9F))

/-- `DEFAULT_OPTIONS` after resolution (hook- and debug-free fields). -/
def defaultOpts : Opts where
  replaceWith := ""
  removeMatches := false
  recursive := true
  removeEmpty := false
  maxDepth := none
  combinedPattern := defaultPattern
  allowedKeys := []
  deniedKeys := []
  stringOptions := { trim := false, lowercase := false, maxLength := none }
  arrayOptions := { filterNull := false, distinct := false }

/-! ## String operations -/

/-- Global replace of a single-character-class pattern:
`str.replace(_combinedPattern, replaceWith)` replaces every matching
character by the (literally inserted) replacement string. -/
def replList (pat : Char → Bool) (repl : List Char) : List Char → List Char
  | [] => []
  | c :: rest => (if pat c then repl else [c]) ++ replList pat repl rest

/-- `_combinedPattern.test(s)` for a single-character-class pattern:
some character of `s` matches.  (The preceding `lastIndex = 0` resets in the
source make the test independent of previous match state, which is what a
stateless predicate models.) -/
def patTest (pat : Char → Bool) (cs : List Char) : Bool :=
  cs.any pat

/-- The WhiteSpace / LineTerminator set trimmed by `String.prototype.trim`
(restricted to the common code points). -/
def isJsSpace (c : Char) : Bool :=
  c = ' ' || c = '\t' || c = '\n' || c = '\r' || c = '\u000b' || c = '\u000c' ||
    c = '\u00A0' || c = '\uFEFF'

/-- `String.prototype.trim`: drop leading and trailing whitespace. -/
def trimList (cs : List Char) : List Char :=
  ((cs.dropWhile isJsSpace).reverse.dropWhile isJsSpace).reverse

/-- `if (stringOptions.trim) result = result.trim()`. -/
def applyTrim (o : Opts) (cs : List Char) : List Char :=
  if o.stringOptions.trim then trimList cs else cs

/-- `if (stringOptions.lowercase) result = result.toLowerCase()`. -/
def applyLowercase (o : Opts) (cs : List Char) : List Char :=
  if o.stringOptions.lowercase then cs.map Char.toLower else cs

/-- `if (stringOptions.maxLength && isValue) result = result.slice(0, maxLength)`
(`maxLength` of `0` or `null` is falsy and skips the truncation). -/
def applyMaxLength (o : Opts) (isValue : Bool) (cs : List Char) : List Char :=
  match o.stringOptions.maxLength with
  | some n => if n ≠ 0 && isValue then cs.take n else cs
  | none => cs

/-- `sanitizeString` on an actual string that passed the email guard is a
pipeline of replace / trim / lowercase / slice.  This is the string-level
body of `sanitizeString` from `sanitizers.js`; `sanitizeString` itself
(non-string and email inputs returned as-is) wraps it. -/
def sanitizeStringCore (s : String) (o : Opts) (isValue : Bool) : String :=
  if isEmailStr s then s
  else
    String.mk (applyMaxLength o isValue (applyLowercase o (applyTrim o
      (replList o.combinedPattern o.replaceWith.toList s.toList))))

/-- `sanitizeString(str, options, isValue)`: non-strings and email-shaped
strings are returned unchanged, everything else goes through the
replace / trim / lowercase / slice pipeline (`slice` only when `isValue`). -/
def sanitizeString (v : JSValue) (o : Opts) (isValue : Bool) : JSValue :=
  match v with
  | .vStr s => .vStr (sanitizeStringCore s o isValue)
  | _ => v

/-! ## Sanitizers

`sanitizeValue` / `sanitizeArray` / `sanitizeObject` from `sanitizers.js`.
`throw new NoSQLSanitizeError(msg, 'type_error')` is an `Except.error`.
To keep the mutual recursion structural, the container branches of
`sanitizeValueE` carry the post-guard bodies of `sanitizeArray` /
`sanitizeObject` inline; `sanitizeArrayE` / `sanitizeObjectE` below are the
guarded source functions themselves, and `sanitizeValueE_arr` /
`sanitizeValueE_obj` prove that the dispatch branches coincide with calling
them, as `sanitizeValue` does. -/

/-- The error value of `NoSQLSanitizeError(message, 'type_error')`. -/
inductive SanitizeErr where
  | typeError (msg : String)
  deriving Repr, DecidableEq

/-- The `maxDepth` guard condition of `sanitizeValue`:
`options.maxDepth !== null && depth >= options.maxDepth`. -/
def stopAtDepth (o : Opts) (depth : Nat) : Bool :=
  match o.maxDepth with
  | some m => decide (m ≤ depth)
  | none => false

/-- JavaScript object property assignment `acc[key] = value` on the
accumulated result object: an existing key keeps its position and gets the
new value, a new (non-integer-like) key is appended in insertion order. -/
def objInsert (acc : List (String × JSValue)) (k : String) (v : JSValue) :
    List (String × JSValue) :=
  if acc.any (fun p => p.1 = k) then
    acc.map (fun p => if p.1 = k then (k, v) else p)
  else acc ++ [(k, v)]

/-- Recursion of `dedupFirst`: keep an element unless an equal one was
already seen. -/
def dedupFirstAux (seen : List JSValue) : List JSValue → List JSValue
  | [] => []
  | x :: xs =>
    if seen.any (fun y => beqV y x) then dedupFirstAux seen xs
    else x :: dedupFirstAux (x :: seen) xs

/-- `[...new Set(out)]`: deduplicate keeping the first occurrence of each
value, in order.  (Value equality; exact for primitive and string elements,
where the JavaScript `Set` also compares by value.) -/
def dedupFirst (l : List JSValue) : List JSValue :=
  dedupFirstAux [] l

/-- The `removeMatches` value check of `sanitizeObject`:
`isString(val) && _combinedPattern.test(val)` (on the original value). -/
def strMatches (o : Opts) (v : JSValue) : Bool :=
  match v with
  | .vStr s => patTest o.combinedPattern s.toList
  | _ => false

/-- The array post-processing of `sanitizeArray`: `filter(Boolean)` when
`filterNull`, then `[...new Set(out)]` when `distinct` (the early return for
both flags off coincides with applying neither filter). -/
def arrayPost (o : Opts) (result : List JSValue) : List JSValue :=
  if o.arrayOptions.distinct then
    dedupFirst (if o.arrayOptions.filterNull then result.filter jsTruthy else result)
  else if o.arrayOptions.filterNull then result.filter jsTruthy else result

mutual

/-- `sanitizeValue(value, options, isValue, depth)`: primitives, dates,
`null`/`undefined` and unexpected objects are returned as-is; strings are
always sanitized regardless of depth; containers hit the `maxDepth` guard
and otherwise run the element / key loop of `sanitizeArray` /
`sanitizeObject` at `depth + 1` (their type guards always pass on this
path; `sanitizeArrayE` / `sanitizeObjectE` below package the guarded
functions, and `sanitizeValueE_arr` / `sanitizeValueE_obj` prove that the
branches here are exactly calls to them). -/
def sanitizeValueE (v : JSValue) (o : Opts) (isValue : Bool) (depth : Nat) :
    Except SanitizeErr JSValue :=
  match v with
  | .vStr s => .ok (.vStr (sanitizeStringCore s o isValue))
  | .vArr elems =>
    if stopAtDepth o depth then .ok (.vArr elems)
    else
      match sanitizeElems elems o (depth + 1) with
      | .error e => .error e
      | .ok result => .ok (.vArr (arrayPost o result))
  | .vObj pairs =>
    if stopAtDepth o depth then .ok (.vObj pairs)
    else
      match sanitizePairs pairs o (depth + 1) [] with
      | .error e => .error e
      | .ok acc => .ok (.vObj acc)
  | other => .ok other

/-- The element loop of `sanitizeArray`: per element, containers are passed
through unchanged when `recursive` is off, everything else recurses through
the dispatch with `isValue = true` at the (already incremented) depth. -/
def sanitizeElems (elems : List JSValue) (o : Opts) (depth : Nat) :
    Except SanitizeErr (List JSValue) :=
  match elems with
  | [] => .ok []
  | item :: rest =>
    match
      if !o.recursive && (isPlainObject item || isArray item) then .ok item
      else sanitizeValueE item o true depth
    with
    | .error e => .error e
    | .ok h =>
      match sanitizeElems rest o depth with
      | .error e => .error e
      | .ok t => .ok (h :: t)

/-- The per-key loop of `sanitizeObject`, in source order: denied-key check
(email values preserved under the sanitized key), allowed-key filter, key
sanitization, `removeMatches` on the original key, `removeEmpty` on the
sanitized key, `removeMatches` on the original string value, value
sanitization (containers skipped when `recursive` is off), `removeEmpty` on
the sanitized value, insertion `acc[sanitizedKey] = sanitizedValue`. -/
def sanitizePairs (pairs : List (String × JSValue)) (o : Opts) (depth : Nat)
    (acc : List (String × JSValue)) : Except SanitizeErr (List (String × JSValue)) :=
  match pairs with
  | [] => .ok acc
  | (key, val) :: rest =>
    if !o.deniedKeys.isEmpty && o.deniedKeys.contains key then
      if isEmail val then
        sanitizePairs rest o depth (objInsert acc (sanitizeStringCore key o false) val)
      else sanitizePairs rest o depth acc
    else if !o.allowedKeys.isEmpty && !o.allowedKeys.contains key then
      sanitizePairs rest o depth acc
    else
      let sanitizedKey := sanitizeStringCore key o false
      if o.removeMatches && patTest o.combinedPattern key.toList then
        sanitizePairs rest o depth acc
      else if o.removeEmpty && sanitizedKey = "" then
        sanitizePairs rest o depth acc
      else if o.removeMatches && strMatches o val then
        sanitizePairs rest o depth acc
      else
        match
          if !o.recursive && (isPlainObject val || isArray val) then .ok val
          else sanitizeValueE val o true depth
        with
        | .error e => .error e
        | .ok sv =>
          if o.removeEmpty && !jsTruthy sv then sanitizePairs rest o depth acc
          else sanitizePairs rest o depth (objInsert acc sanitizedKey sv)

end

/-- `sanitizeArray(arr, options, depth)`: the type-error guard followed by
the element loop and the post-processing. -/
def sanitizeArrayE (v : JSValue) (o : Opts) (depth : Nat) : Except SanitizeErr JSValue :=
  match v with
  | .vArr elems =>
    match sanitizeElems elems o depth with
    | .error e => .error e
    | .ok result => .ok (.vArr (arrayPost o result))
  | _ => .error (.typeError "Input must be an array")

/-- `sanitizeObject(obj, options, depth)`: the type-error guard followed by
the key loop over an empty accumulator. -/
def sanitizeObjectE (v : JSValue) (o : Opts) (depth : Nat) : Except SanitizeErr JSValue :=
  match v with
  | .vObj pairs =>
    match sanitizePairs pairs o depth [] with
    | .error e => .error e
    | .ok acc => .ok (.vObj acc)
  | _ => .error (.typeError "Input must be an object")

/-- Decidable equality on sanitizer results. -/
instance : DecidableEq (Except SanitizeErr JSValue) := fun a b =>
  match a, b with
  | .ok x, .ok y => decidable_of_iff (x = y) (by simp)
  | .error x, .error y => decidable_of_iff (x = y) (by simp)
  | .ok _, .error _ => isFalse (by simp)
  | .error _, .ok _ => isFalse (by simp)

/-! ## Route normalization and the content-type gate

`cleanUrl` / `extractMimeType` from the helpers and
`shouldSanitizeContentType` from `constants.js`. -/

/-- A query or fragment delimiter: `?` or `#`. -/
def isStopChar (c : Char) : Bool :=
  c = '?' || c = '#'

/-- A path separator (`charCodeAt === 47`). -/
def isSlashChar (c : Char) : Bool :=
  c = '/'

/-- The trimming pipeline of `cleanUrl`: cut the suffix from the first `?`
or `#` (the source computes `end` as the least of the occurring `indexOf`
positions, which is the prefix before the first occurrence of either
character), then drop the leading and the trailing run of `/`. -/
def stripSuffixAndSlashes (cs : List Char) : List Char :=
  (((cs.takeWhile (fun c => !isStopChar c)).dropWhile isSlashChar).reverse.dropWhile
    isSlashChar).reverse

/-- The body of `cleanUrl` on the character list of a string input: `null`
for the empty string; apply the trimming pipeline; `null` when nothing
remains (`start >= end`); otherwise the remainder behind a single leading
`/`. -/
def cleanUrlList (cs : List Char) : Option (List Char) :=
  if cs.isEmpty then none
  else if (stripSuffixAndSlashes cs).isEmpty then none
  else some ('/' :: stripSuffixAndSlashes cs)

/-- `cleanUrl(url)`: `null` for non-strings, else the normalized path. -/
def cleanUrl (v : JSValue) : Option String :=
  match v with
  | .vStr s => (cleanUrlList s.toList).map String.mk
  | _ => none

/-- `extractMimeType(contentType)`: `null` for non-strings; the part before
the first `;` (or the whole string), trimmed and lower-cased; `null` when
that is empty (`mime || null`). -/
def extractMimeType (v : JSValue) : Option String :=
  match v with
  | .vStr ct =>
    let mime := (trimList (ct.toList.takeWhile (fun c => c ≠ ';'))).map Char.toLower
    if mime.isEmpty then none else some (String.mk mime)
  | _ => none

/-- The request-like host object, reduced to its two content-type access
paths: the direct `request.headers['content-type']` lookup and the
Express-style `request.get('content-type')` accessor (each `none` when the
headers map / `get` method is missing or has no such entry). -/
structure Request where
  headersCT : Option String
  getCT : Option String

/-- JavaScript `||` on a possibly-absent string: an absent or empty
(falsy) left operand falls through to the alternative. -/
def jsOrString : Option String → Option String → Option String
  | some h, alt => if h = "" then alt else some h
  | none, alt => alt

/-- The header extraction chain of `shouldSanitizeContentType`:
`(request.headers && request.headers['content-type']) ||
 (typeof request.get === 'function' && request.get('content-type')) || null`. -/
def requestHeader (r : Request) : Option String :=
  jsOrString r.headersCT (jsOrString r.getCT none)

/-- `shouldSanitizeContentType(request, contentTypes)`: `true` when the
allow-set is the `null` sentinel; `true` when no (truthy) content-type
header is found; otherwise `contentTypes.has(mime)` when a MIME type could
be extracted and `true` when extraction yields `null`. -/
def shouldSanitizeContentType (r : Request) (contentTypes : Option (List String)) : Bool :=
  match contentTypes with
  | none => true
  | some cts =>
    match requestHeader r with
    | none => true
    | some header =>
      match extractMimeType (.vStr header) with
      | some mime => cts.contains mime
      | none => true

/-! ## Concrete configurations used by the scenario checks -/

/-- `resolveOptions({ maxDepth: 1 })`. -/
def optsMaxDepth1 : Opts :=
  { defaultOpts with maxDepth := some 1 }

/-- `resolveOptions({ deniedKeys: ['x'], allowedKeys: ['x'] })`. -/
def optsDeniedAllowedX : Opts :=
  { defaultOpts with deniedKeys := ["x"], allowedKeys := ["x"] }

/-- `resolveOptions({ removeMatches: true })`. -/
def optsRemoveMatches : Opts :=
  { defaultOpts with removeMatches := true }

/-- `stringOptions: { lowercase: true }` resolved. -/
def lowercaseStringOpts : StringOpts :=
  { trim := false, lowercase := true, maxLength := none }

/-- `resolveOptions({ allowedKeys: ['X'], stringOptions: { lowercase: true } })`. -/
def optsLowerAllowedX : Opts :=
  { defaultOpts with allowedKeys := ["X"], stringOptions := lowercaseStringOpts }

/-- `stringOptions: { trim: true, lowercase: true, maxLength: 3 }` resolved. -/
def fullStringOpts : StringOpts :=
  { trim := true, lowercase := true, maxLength := some 3 }

/-- `resolveOptions({ replaceWith: '_', stringOptions: { trim: true, lowercase: true, maxLength: 3 } })`. -/
def optsAggressive : Opts :=
  { defaultOpts with replaceWith := "_", stringOptions := fullStringOpts }

/-- `resolveOptions({ removeMatches: true, removeEmpty: true })`. -/
def optsRMRE : Opts :=
  { defaultOpts with removeMatches := true, removeEmpty := true }

/-- A value that the element loop maps to itself: either the
`recursive: false` container skip applies, or re-sanitizing it is the
identity. -/
def elemFixed (o : Opts) (d : Nat) (x : JSValue) : Prop :=
  (o.recursive = false ∧ (isPlainObject x || isArray x) = true) ∨
    sanitizeValueE x o true d = .ok x

/-- A key/value pair that the key loop of `sanitizeObject` re-inserts
unchanged: the key is a fixed point of key sanitization and passes the
`removeMatches` / `removeEmpty` key checks, and the value passes the
`removeMatches` / `removeEmpty` value checks and is fixed under value
sanitization. -/
def pairGood (o : Opts) (d : Nat) (p : String × JSValue) : Prop :=
  sanitizeStringCore p.1 o false = p.1 ∧
  (o.removeMatches = true → patTest o.combinedPattern p.1.toList = false) ∧
  (o.removeEmpty = true → p.1 ≠ "") ∧
  (o.removeMatches = true → strMatches o p.2 = false) ∧
  (o.removeEmpty = true → jsTruthy p.2 = true) ∧
  elemFixed o d p.2

/-! ## Theorems -/

/-- `sanitizeValue`'s array branch is exactly a call of the guarded
`sanitizeArray` at `depth + 1` (the guard always passes there). -/
theorem sanitizeValueE_arr (elems : List JSValue) (o : Opts) (iv : Bool) (d : Nat)
    (h : stopAtDepth o d = false) :
    sanitizeValueE (.vArr elems) o iv d = sanitizeArrayE (.vArr elems) o (d + 1) := by
  simp [sanitizeValueE, sanitizeArrayE, h]

/-- `sanitizeValue`'s object branch is exactly a call of the guarded
`sanitizeObject` at `depth + 1` (the guard always passes there). -/
theorem sanitizeValueE_obj (pairs : List (String × JSValue)) (o : Opts) (iv : Bool) (d : Nat)
    (h : stopAtDepth o d = false) :
    sanitizeValueE (.vObj pairs) o iv d = sanitizeObjectE (.vObj pairs) o (d + 1) := by
  simp [sanitizeValueE, sanitizeObjectE, h]


/-- Claim C6: every string matching the email heuristic is returned
unchanged by `sanitizeString` and by `sanitizeValue`, under every resolved
configuration and at every depth — no pattern substitution, trim,
lowercase or max-length truncation is applied to email-shaped strings. -/
theorem claim_C6 (o : Opts) (iv : Bool) (d : Nat) (s : String)
    (h : isEmailStr s = true) :
    sanitizeString (.vStr s) o iv = .vStr s ∧
    sanitizeValueE (.vStr s) o iv d = .ok (.vStr s) := by
  have hc : sanitizeStringCore s o iv = s := by simp [sanitizeStringCore, h]
  exact ⟨by simp [sanitizeString, hc], by simp [sanitizeValueE, hc]⟩

/-- Witness for C6 at the mixed-case email `User@Ex.com` under a
configuration with a non-empty replacement and all string transforms on. -/
theorem claim_C6_witness :
    isEmailStr "User@Ex.com" = true ∧
    (sanitizeString (.vStr "User@Ex.com") optsAggressive true = .vStr "User@Ex.com" ∧
     sanitizeValueE (.vStr "User@Ex.com") optsAggressive true 0 = .ok (.vStr "User@Ex.com")) :=
  ⟨by decide, claim_C6 optsAggressive true 0 "User@Ex.com" (by decide)⟩

/-- Claim C3: when `deniedKeys` is non-empty and contains the key, the
single-pair object keeps the pair (under the sanitized key, with the value
untouched) exactly when the value is email-shaped, and drops it otherwise —
independently of `allowedKeys` and of every other option. -/
theorem claim_C3 (o : Opts) (d : Nat) (key : String) (val : JSValue)
    (hne : o.deniedKeys ≠ []) (hmem : o.deniedKeys.contains key = true) :
    sanitizeObjectE (.vObj [(key, val)]) o d =
      .ok (.vObj (if isEmail val then [(sanitizeStringCore key o false, val)] else [])) := by
  have h1 : o.deniedKeys.isEmpty = false := by
    cases hd : o.deniedKeys with
    | nil => exact absurd hd hne
    | cons a l => rfl
  have hmem2 : key ∈ o.deniedKeys := by simpa using hmem
  by_cases he : isEmail val = true
  · simp [sanitizeObjectE, sanitizePairs, h1, hmem2, he, objInsert]
  · simp at he
    simp [sanitizeObjectE, sanitizePairs, h1, hmem2, he, objInsert]

/-- Witness for C3 with `deniedKeys=['x']`, `allowedKeys=['x']`: the
email value `a@b.com` keeps the pair, the non-email value `a` drops it. -/
theorem claim_C3_witness :
    (optsDeniedAllowedX.deniedKeys ≠ [] ∧
     optsDeniedAllowedX.deniedKeys.contains "x" = true) ∧
    sanitizeObjectE (.vObj [("x", .vStr "a@b.com")]) optsDeniedAllowedX 1 =
      .ok (.vObj [("x", .vStr "a@b.com")]) ∧
    sanitizeObjectE (.vObj [("x", .vStr "a")]) optsDeniedAllowedX 1 = .ok (.vObj []) := by
  refine ⟨⟨by decide, by decide⟩, ?_, ?_⟩
  · rw [claim_C3 optsDeniedAllowedX 1 "x" (.vStr "a@b.com") (by decide) (by decide)]
    decide
  · rw [claim_C3 optsDeniedAllowedX 1 "x" (.vStr "a") (by decide) (by decide)]
    decide

/-- Claim C9 (implicit): two distinct original keys that sanitize to the
same key raise no error and are not merged structurally — the later pair's
value overwrites the earlier one's, so the result has fewer entries than
the input has pairs.  Shown for `$a` and `a` under the default pattern and
empty replacement, quantified over both values. -/
theorem claim_C9 (n1 n2 : Int) :
    sanitizeValueE (.vObj [("$a", .vNum n1), ("a", .vNum n2)]) defaultOpts false 0 =
      .ok (.vObj [("a", .vNum n2)]) := by
  have hstop : stopAtDepth defaultOpts 0 = false := by decide
  have h1 : sanitizeStringCore "$a" defaultOpts false = "a" := by decide
  have h2 : sanitizeStringCore "a" defaultOpts false = "a" := by decide
  have e1 : defaultOpts.deniedKeys.isEmpty = true := by decide
  have e2 : defaultOpts.allowedKeys.isEmpty = true := by decide
  have e3 : defaultOpts.removeMatches = false := by decide
  have e4 : defaultOpts.removeEmpty = false := by decide
  have e5 : defaultOpts.recursive = true := by decide
  simp [sanitizeValueE, hstop, sanitizePairs, h1, h2, e1, e2, e3, e4, e5, objInsert]

/-- Claim C2: a container reached at `depth ≥ maxDepth` is returned
identically (recursion never crosses the boundary); a string value is
sanitized by `sanitizeValue` at every depth, the result not depending on
the depth argument; and the scenario `{ a: { b: { c: "$x" } } }` with
`maxDepth = 1` leaves the inner mapping untouched. -/
theorem claim_C2 (o : Opts) (iv : Bool) (d m : Nat) (s : String) (v : JSValue)
    (hm : o.maxDepth = some m) (hd : m ≤ d)
    (hc : isArray v = true ∨ isPlainObject v = true) :
    sanitizeValueE v o iv d = .ok v ∧
    sanitizeValueE (.vStr s) o iv d = .ok (.vStr (sanitizeStringCore s o iv)) ∧
    sanitizeValueE (.vObj [("a", .vObj [("b", .vObj [("c", .vStr "$x")])])]) optsMaxDepth1 false 0 =
      .ok (.vObj [("a", .vObj [("b", .vObj [("c", .vStr "$x")])])]) := by
  have hstop : stopAtDepth o d = true := by simp [stopAtDepth, hm, hd]
  refine ⟨?_, by simp [sanitizeValueE], by decide⟩
  cases v with
  | vArr elems => simp [sanitizeValueE, hstop]
  | vObj pairs => simp [sanitizeValueE, hstop]
  | vNull => simp [isArray, isPlainObject] at hc
  | vUndefined => simp [isArray, isPlainObject] at hc
  | vBool b => simp [isArray, isPlainObject] at hc
  | vNum n => simp [isArray, isPlainObject] at hc
  | vStr t => simp [isArray, isPlainObject] at hc
  | vDate t => simp [isArray, isPlainObject] at hc
  | vOther => simp [isArray, isPlainObject] at hc

/-- Witness for C2: with `maxDepth = 1`, an object at depth 1 is returned
identically while a string at depth 1 is still substituted. -/
theorem claim_C2_witness :
    (optsMaxDepth1.maxDepth = some 1 ∧ 1 ≤ 1 ∧
     (isArray (JSValue.vObj [("k", .vStr "$x")]) = true ∨
      isPlainObject (JSValue.vObj [("k", .vStr "$x")]) = true)) ∧
    (sanitizeValueE (.vObj [("k", .vStr "$x")]) optsMaxDepth1 true 1 =
        .ok (.vObj [("k", .vStr "$x")]) ∧
     sanitizeValueE (.vStr "$y") optsMaxDepth1 true 1 =
        .ok (.vStr (sanitizeStringCore "$y" optsMaxDepth1 true)) ∧
     sanitizeValueE (.vObj [("a", .vObj [("b", .vObj [("c", .vStr "$x")])])]) optsMaxDepth1 false 0 =
        .ok (.vObj [("a", .vObj [("b", .vObj [("c", .vStr "$x")])])])) :=
  ⟨⟨by decide, by decide, by decide⟩,
   claim_C2 optsMaxDepth1 true 1 1 "$y" (.vObj [("k", .vStr "$x")]) (by decide) (by decide)
     (by decide)⟩

/-- Claim C4: with empty key filters, `removeMatches` drops a pair whose
original key matches the combined pattern (the sanitized key is never
emitted) and a pair whose original string value matches; `removeEmpty`
drops a pair by the sanitized key and by the sanitized value; and the
scenario `removeMatches=true` on `{ $admin: 'v', safe: '$x', mail:
'a@b.com' }` yields `{ mail: 'a@b.com' }`. -/
theorem claim_C4 (o : Opts) (d : Nat) (key : String) (val : JSValue)
    (hden : o.deniedKeys = []) (hall : o.allowedKeys = []) :
    (o.removeMatches = true → patTest o.combinedPattern key.toList = true →
      sanitizeObjectE (.vObj [(key, val)]) o d = .ok (.vObj [])) ∧
    (o.removeMatches = true → patTest o.combinedPattern key.toList = false →
      strMatches o val = true →
      sanitizeObjectE (.vObj [(key, val)]) o d = .ok (.vObj [])) ∧
    (o.removeEmpty = true → sanitizeStringCore key o false = "" →
      sanitizeObjectE (.vObj [(key, val)]) o d = .ok (.vObj [])) ∧
    (o.removeEmpty = true → o.recursive = true →
      ∀ sv, sanitizeValueE val o true d = .ok sv → jsTruthy sv = false →
      sanitizeObjectE (.vObj [(key, val)]) o d = .ok (.vObj [])) ∧
    sanitizeValueE (.vObj [("$admin", .vStr "v"), ("safe", .vStr "$x"), ("mail", .vStr "a@b.com")])
      optsRemoveMatches false 0 = .ok (.vObj [("mail", .vStr "a@b.com")]) := by
  have hd1 : o.deniedKeys.isEmpty = true := by simp [hden]
  have ha1 : o.allowedKeys.isEmpty = true := by simp [hall]
  refine ⟨?_, ?_, ?_, ?_, by decide⟩
  · intro hrm hkey
    simp only [String.toList] at hkey
    simp [sanitizeObjectE, sanitizePairs, hd1, ha1, hrm, hkey]
  · intro hrm hkey hval
    simp only [String.toList] at hkey
    simp [sanitizeObjectE, sanitizePairs, hd1, ha1, hrm, hkey, hval]
  · intro hre hkey
    by_cases hrm : o.removeMatches = true ∧ patTest o.combinedPattern key.data = true
    · simp [sanitizeObjectE, sanitizePairs, hd1, ha1, hrm, hre, hkey]
    · simp [sanitizeObjectE, sanitizePairs, hd1, ha1, hrm, hre, hkey]
  · intro hre hrec sv hsv htruthy
    by_cases hrm : o.removeMatches = true ∧ patTest o.combinedPattern key.data = true
    · simp [sanitizeObjectE, sanitizePairs, hd1, ha1, hrm]
    · by_cases hk : sanitizeStringCore key o false = ""
      · simp [sanitizeObjectE, sanitizePairs, hd1, ha1, hrm, hre, hk]
      · by_cases hvm : o.removeMatches = true ∧ strMatches o val = true
        · simp [sanitizeObjectE, sanitizePairs, hd1, ha1, hrm, hre, hk, hvm]
        · simp [sanitizeObjectE, sanitizePairs, hd1, ha1, hrm, hre, hk, hvm, hrec, hsv,
            htruthy]

/-- Witness for C4 under `removeMatches=true, removeEmpty=true`: the
matching original key `$admin` is dropped (though its sanitized form
`admin` does not match), the matching original value on key `safe` is
dropped, the key `$` whose sanitized form is empty is dropped, and the
value `$` whose sanitized form is empty is dropped. -/
theorem claim_C4_witness :
    (optsRMRE.deniedKeys = [] ∧ optsRMRE.allowedKeys = []) ∧
    sanitizeObjectE (.vObj [("$admin", .vStr "v")]) optsRMRE 1 = .ok (.vObj []) ∧
    sanitizeObjectE (.vObj [("safe", .vStr "$x")]) optsRMRE 1 = .ok (.vObj []) ∧
    sanitizeObjectE (.vObj [("$", .vNum 1)]) optsRMRE 1 = .ok (.vObj []) ∧
    sanitizeObjectE (.vObj [("k", .vStr "$")]) optsRMRE 1 = .ok (.vObj []) := by
  refine ⟨⟨by decide, by decide⟩, ?_, ?_, ?_, ?_⟩
  · exact (claim_C4 optsRMRE 1 "$admin" (.vStr "v") (by decide) (by decide)).1 (by decide)
      (by decide)
  · exact (claim_C4 optsRMRE 1 "safe" (.vStr "$x") (by decide) (by decide)).2.1 (by decide)
      (by decide) (by decide)
  · exact (claim_C4 optsRMRE 1 "$" (.vNum 1) (by decide) (by decide)).2.2.1 (by decide)
      (by decide)
  · exact (claim_C4 optsRMRE 1 "k" (.vStr "$") (by decide) (by decide)).2.2.2.1 (by decide)
      (by decide) (.vStr "") (by decide) (by decide)

/-- Cutting at a query/fragment delimiter: appending `c :: q` with a stop
character `c` behind `p` leaves the pre-suffix prefix of `p` unchanged. -/
theorem takeWhile_stop_append (q : List Char) (c : Char) (hc : isStopChar c = true)
    (p : List Char) :
    (p ++ c :: q).takeWhile (fun x => !isStopChar x) =
      p.takeWhile (fun x => !isStopChar x) := by
  rw [List.takeWhile_append]
  have h0 : (c :: q).takeWhile (fun x => !isStopChar x) = [] := by
    simp [List.takeWhile_cons, hc]
  split
  · next h =>
    have hself := (List.takeWhile_prefix (l := p) (fun x => !isStopChar x)).eq_of_length h
    simp [h0, hself]
  · rfl

/-- The trimming pipeline ignores anything from a stop character on. -/
theorem strip_stop_append (p q : List Char) (c : Char) (hc : isStopChar c = true) :
    stripSuffixAndSlashes (p ++ c :: q) = stripSuffixAndSlashes p := by
  unfold stripSuffixAndSlashes
  rw [takeWhile_stop_append q c hc p]

/-- The trimming pipeline ignores one trailing separator. -/
theorem strip_slash_concat (p : List Char) :
    stripSuffixAndSlashes (p ++ ['/']) = stripSuffixAndSlashes p := by
  unfold stripSuffixAndSlashes
  have hs : isSlashChar '/' = true := rfl
  by_cases hall : ∀ x ∈ p, (!isStopChar x) = true
  · rw [List.takeWhile_append_of_pos hall, List.takeWhile_eq_self_iff.mpr hall]
    have h1 : List.takeWhile (fun c => !isStopChar c) ['/'] = ['/'] := by decide
    rw [h1]
    cases hm : p.dropWhile isSlashChar with
    | nil =>
      have hL : (p ++ ['/']).dropWhile isSlashChar = [] := by
        rw [List.dropWhile_append, hm]
        decide
      rw [hL]
    | cons b m' =>
      have hL : (p ++ ['/']).dropWhile isSlashChar = p.dropWhile isSlashChar ++ ['/'] := by
        rw [List.dropWhile_append, hm]
        simp
      rw [hL, hm, List.reverse_append]
      simp [List.dropWhile_cons, hs]
  · have hbs : (p ++ ['/']).takeWhile (fun c => !isStopChar c) =
        p.takeWhile (fun c => !isStopChar c) := by
      rw [List.takeWhile_append]
      split
      · next h =>
        exact absurd (List.takeWhile_eq_self_iff.mp
          ((List.takeWhile_prefix _).eq_of_length h)) hall
      · rfl
    rw [hbs]

/-- `cleanUrl` identifies a path with any `?`- or `#`-suffixed variant. -/
theorem cleanUrlList_stop_append (p q : List Char) (c : Char) (hc : isStopChar c = true) :
    cleanUrlList (p ++ c :: q) = cleanUrlList p := by
  cases p with
  | nil =>
    have h0 : stripSuffixAndSlashes (c :: q) = [] := by
      unfold stripSuffixAndSlashes
      rw [List.takeWhile_cons]
      simp [hc]
    simp [cleanUrlList, h0]
  | cons a p' =>
    have h := strip_stop_append (a :: p') q c hc
    rw [List.cons_append] at h
    rw [List.cons_append]
    simp [cleanUrlList, h]

/-- `cleanUrl` identifies a path with its trailing-separator variant. -/
theorem cleanUrlList_slash_concat (p : List Char) :
    cleanUrlList (p ++ ['/']) = cleanUrlList p := by
  cases p with
  | nil => decide
  | cons a p' =>
    have h := strip_slash_concat (a :: p')
    rw [List.cons_append] at h
    rw [List.cons_append]
    simp [cleanUrlList, h]

/-- Claim C8: `cleanUrl` returns `none` on non-strings; it identifies a
path with its query-suffixed, fragment-suffixed and trailing-separator
variants; every produced path is the trimmed remainder behind exactly one
leading separator; and `cleanUrl('/a/') = cleanUrl('/a') =
cleanUrl('/a?x=1') = some "/a"`, with the empty and all-separator strings
mapped to `none`. -/
theorem claim_C8 :
    (∀ v : JSValue, isString v = false → cleanUrl v = none) ∧
    (∀ p q : String, cleanUrl (.vStr (p ++ "?" ++ q)) = cleanUrl (.vStr p)) ∧
    (∀ p q : String, cleanUrl (.vStr (p ++ "#" ++ q)) = cleanUrl (.vStr p)) ∧
    (∀ p : String, cleanUrl (.vStr (p ++ "/")) = cleanUrl (.vStr p)) ∧
    (∀ (s : String) (r : String), cleanUrl (.vStr s) = some r →
      ∃ t, r = String.mk ('/' :: t) ∧ t ≠ [] ∧
        ∀ c, t.head? = some c → isSlashChar c = false) ∧
    cleanUrl (.vStr "") = none ∧ cleanUrl (.vStr "///") = none ∧
    (cleanUrl (.vStr "/a/") = some "/a" ∧ cleanUrl (.vStr "/a") = some "/a" ∧
     cleanUrl (.vStr "/a?x=1") = some "/a") := by
  refine ⟨?_, ?_, ?_, ?_, ?_, by decide, by decide, by decide, by decide, by decide⟩
  · intro v hv
    cases v <;> simp_all [isString, cleanUrl]
  · intro p q
    have : (p ++ "?" ++ q).toList = p.toList ++ '?' :: q.toList := by
      simp [String.toList, String.data_append]
    simp only [cleanUrl, this, cleanUrlList_stop_append p.toList q.toList '?' (by decide)]
  · intro p q
    have : (p ++ "#" ++ q).toList = p.toList ++ '#' :: q.toList := by
      simp [String.toList, String.data_append]
    simp only [cleanUrl, this, cleanUrlList_stop_append p.toList q.toList '#' (by decide)]
  · intro p
    have : (p ++ "/").toList = p.toList ++ ['/'] := by
      simp [String.toList, String.data_append]
    simp only [cleanUrl, this, cleanUrlList_slash_concat p.toList]
  · intro s r hr
    simp only [cleanUrl, Option.map_eq_some'] at hr
    obtain ⟨cs, hcs, hmk⟩ := hr
    simp only [cleanUrlList] at hcs
    split at hcs
    · exact absurd hcs (by simp)
    · split at hcs
      · exact absurd hcs (by simp)
      · next hne =>
        have hcs2 := Option.some_inj.mp hcs
        refine ⟨stripSuffixAndSlashes s.toList, by rw [← hmk, ← hcs2], by simpa using hne, ?_⟩
        intro c hc
        unfold stripSuffixAndSlashes at hc
        set lead := (s.toList.takeWhile (fun x => !isStopChar x)).dropWhile isSlashChar
          with hlead
        have hsuf : lead.reverse.dropWhile isSlashChar <:+ lead.reverse :=
          List.dropWhile_suffix isSlashChar
        have hpref : (lead.reverse.dropWhile isSlashChar).reverse <+: lead.reverse.reverse :=
          List.reverse_prefix.mpr hsuf
        rw [List.reverse_reverse] at hpref
        obtain ⟨u, hu⟩ := hpref
        have hheads : lead.head? = some c := by
          rw [← hu, List.head?_append, hc]
          rfl
        have hnot := List.head?_dropWhile_not isSlashChar
          (s.toList.takeWhile (fun x => !isStopChar x))
        rw [← hlead, hheads] at hnot
        exact hnot

/-- Witness for C8: each implication-bearing conjunct evaluated at a
concrete input through the theorem itself. -/
theorem claim_C8_witness :
    cleanUrl (.vNum 7) = none ∧
    cleanUrl (.vStr ("/a" ++ "?" ++ "x=1")) = cleanUrl (.vStr "/a") ∧
    cleanUrl (.vStr ("/a" ++ "#" ++ "frag")) = cleanUrl (.vStr "/a") ∧
    cleanUrl (.vStr ("/a" ++ "/")) = cleanUrl (.vStr "/a") ∧
    (∃ t, "/a" = String.mk ('/' :: t) ∧ t ≠ [] ∧
      ∀ c, t.head? = some c → isSlashChar c = false) :=
  ⟨claim_C8.1 (.vNum 7) (by decide),
   claim_C8.2.1 "/a" "x=1",
   claim_C8.2.2.1 "/a" "frag",
   claim_C8.2.2.2.1 "/a",
   claim_C8.2.2.2.2.1 "/a/" "/a" (by decide)⟩

/-- Claim C7 counterexample: a request whose content-type header is
`;charset=utf-8` is present, extracts no MIME type (the part before the
first `;` trims to the empty string, which is not a member of the
allow-set), and the gate nevertheless returns `true`. -/
theorem claim_C7_counterexample :
    shouldSanitizeContentType ⟨some ";charset=utf-8", none⟩ (some ["application/json"]) = true ∧
    requestHeader ⟨some ";charset=utf-8", none⟩ = some ";charset=utf-8" ∧
    extractMimeType (.vStr ";charset=utf-8") = none ∧
    (["application/json"] : List String).contains "" = false := by
  exact ⟨by decide, by decide, by decide, by decide⟩

/-- Claim C7 (amended): the gate is `true` unconditionally on the `null`
sentinel; `true` when no (truthy) content-type header is found; and with a
present header, `true` exactly when the extracted MIME type is a member of
the allow-set — except that a header from which no MIME type can be
extracted (empty before the first `;` after trimming) also yields `true`. -/
theorem claim_C7 (r : Request) (cts : List String) :
    shouldSanitizeContentType r none = true ∧
    (requestHeader r = none → shouldSanitizeContentType r (some cts) = true) ∧
    (∀ header mime, requestHeader r = some header →
      extractMimeType (.vStr header) = some mime →
      shouldSanitizeContentType r (some cts) = cts.contains mime) ∧
    (∀ header, requestHeader r = some header →
      extractMimeType (.vStr header) = none →
      shouldSanitizeContentType r (some cts) = true) := by
  refine ⟨rfl, ?_, ?_, ?_⟩
  · intro h
    simp [shouldSanitizeContentType, h]
  · intro header mime hh hm
    simp [shouldSanitizeContentType, hh, hm]
  · intro header hh hm
    simp [shouldSanitizeContentType, hh, hm]

/-- Witness for C7 at a mixed-case header with a charset parameter against
the default JSON allow-set. -/
theorem claim_C7_witness :
    (requestHeader ⟨some "Application/JSON; charset=utf-8", none⟩ =
        some "Application/JSON; charset=utf-8" ∧
     extractMimeType (.vStr "Application/JSON; charset=utf-8") = some "application/json") ∧
    shouldSanitizeContentType ⟨some "Application/JSON; charset=utf-8", none⟩
        (some ["application/json"]) =
      (["application/json"] : List String).contains "application/json" :=
  ⟨⟨by decide, by decide⟩,
   (claim_C7 ⟨some "Application/JSON; charset=utf-8", none⟩ ["application/json"]).2.2.1
     "Application/JSON; charset=utf-8" "application/json" (by decide) (by decide)⟩

/-! Totality: the sanitizers never reach an error through the dispatch. -/

mutual

/-- `sanitizeValue` succeeds on every value, configuration and depth. -/
theorem sanitizeValueE_ok (v : JSValue) (o : Opts) (iv : Bool) (d : Nat) :
    ∃ r, sanitizeValueE v o iv d = .ok r := by
  cases v with
  | vArr elems =>
    by_cases hstop : stopAtDepth o d = true
    · exact ⟨.vArr elems, by simp [sanitizeValueE, hstop]⟩
    · obtain ⟨rs, hrs⟩ := sanitizeElems_ok elems o (d + 1)
      exact ⟨.vArr (arrayPost o rs), by simp [sanitizeValueE, hstop, hrs]⟩
  | vObj pairs =>
    by_cases hstop : stopAtDepth o d = true
    · exact ⟨.vObj pairs, by simp [sanitizeValueE, hstop]⟩
    · obtain ⟨acc, hacc⟩ := sanitizePairs_ok pairs o (d + 1) []
      exact ⟨.vObj acc, by simp [sanitizeValueE, hstop, hacc]⟩
  | vStr str => exact ⟨_, rfl⟩
  | vNull => exact ⟨_, rfl⟩
  | vUndefined => exact ⟨_, rfl⟩
  | vBool b => exact ⟨_, rfl⟩
  | vNum n => exact ⟨_, rfl⟩
  | vDate t => exact ⟨_, rfl⟩
  | vOther => exact ⟨_, rfl⟩

/-- The element loop of `sanitizeArray` succeeds on every element list. -/
theorem sanitizeElems_ok (elems : List JSValue) (o : Opts) (d : Nat) :
    ∃ rs, sanitizeElems elems o d = .ok rs := by
  cases elems with
  | nil => exact ⟨[], rfl⟩
  | cons item rest =>
    obtain ⟨t, ht⟩ := sanitizeElems_ok rest o d
    by_cases hskip : (!o.recursive && (isPlainObject item || isArray item)) = true
    · exact ⟨item :: t, by simp [sanitizeElems, hskip, ht]⟩
    · obtain ⟨h1, hh⟩ := sanitizeValueE_ok item o true d
      exact ⟨h1 :: t, by simp [sanitizeElems, hskip, hh, ht]⟩

/-- The key loop of `sanitizeObject` succeeds from every accumulator. -/
theorem sanitizePairs_ok (pairs : List (String × JSValue)) (o : Opts) (d : Nat) :
    ∀ acc, ∃ rs, sanitizePairs pairs o d acc = .ok rs := by
  cases pairs with
  | nil => exact fun acc => ⟨acc, rfl⟩
  | cons kv rest =>
    obtain ⟨key, val⟩ := kv
    intro acc
    obtain ⟨sv, hsv⟩ := sanitizeValueE_ok val o true d
    have hsv2 : (if (!o.recursive && (isPlainObject val || isArray val)) = true then
          Except.ok (ε := SanitizeErr) val
        else sanitizeValueE val o true d) =
        .ok (if (!o.recursive && (isPlainObject val || isArray val)) = true then val else sv) := by
      split
      · rfl
      · exact hsv
    simp only [sanitizePairs, hsv2]
    split
    · split
      · exact sanitizePairs_ok rest o d _
      · exact sanitizePairs_ok rest o d _
    · split
      · exact sanitizePairs_ok rest o d _
      · split
        · exact sanitizePairs_ok rest o d _
        · split
          · exact sanitizePairs_ok rest o d _
          · split
            · exact sanitizePairs_ok rest o d _
            · split
              · split
                · exact sanitizePairs_ok rest o d _
                · exact sanitizePairs_ok rest o d _
              · split
                · exact sanitizePairs_ok rest o d _
                · exact sanitizePairs_ok rest o d _
end

/-- Claim C1: `sanitizeValue` returns normally (an `ok` result, never a
raised error) on every value, resolved configuration and depth, and its
container branches are exactly calls of the guarded `sanitizeArray` /
`sanitizeObject` on an array / a plain object, so their type-error branches
are unreachable through the dispatch. -/
theorem claim_C1 (v : JSValue) (o : Opts) (iv : Bool) (d : Nat) :
    (∃ r, sanitizeValueE v o iv d = .ok r) ∧
    (∀ elems, v = .vArr elems → stopAtDepth o d = false →
      sanitizeValueE v o iv d = sanitizeArrayE v o (d + 1)) ∧
    (∀ pairs, v = .vObj pairs → stopAtDepth o d = false →
      sanitizeValueE v o iv d = sanitizeObjectE v o (d + 1)) := by
  refine ⟨sanitizeValueE_ok v o iv d, ?_, ?_⟩
  · rintro elems rfl h
    exact sanitizeValueE_arr elems o iv d h
  · rintro pairs rfl h
    exact sanitizeValueE_obj pairs o iv d h

/-- Witness for C1 on a nested array-of-object payload under the default
configuration. -/
theorem claim_C1_witness :
    (∃ r, sanitizeValueE (.vArr [.vObj [("$a", .vStr "$b")]]) defaultOpts false 0 = .ok r) ∧
    sanitizeValueE (.vArr [.vObj [("$a", .vStr "$b")]]) defaultOpts false 0 =
      sanitizeArrayE (.vArr [.vObj [("$a", .vStr "$b")]]) defaultOpts 1 :=
  ⟨(claim_C1 (.vArr [.vObj [("$a", .vStr "$b")]]) defaultOpts false 0).1,
   (claim_C1 (.vArr [.vObj [("$a", .vStr "$b")]]) defaultOpts false 0).2.1
     [.vObj [("$a", .vStr "$b")]] rfl (by decide)⟩

/-! ### Character-level facts used by the idempotence analysis -/

/-- Characters are determined by their code points. -/
theorem charEq_iff_toNat (a b : Char) : a = b ↔ a.toNat = b.toNat := by
  constructor
  · intro h
    rw [h]
  · intro h
    have hx := Char.ofNat_toNat a
    rw [h, Char.ofNat_toNat] at hx
    exact hx.symm

/-- Code point of `Char.toLower`: basic latin upper-case letters move up by
32, everything else is unchanged. -/
theorem toLower_toNat (c : Char) :
    (Char.toLower c).toNat = if c.toNat ≥ 65 ∧ c.toNat ≤ 90 then c.toNat + 32 else c.toNat := by
  simp only [Char.toLower]
  split
  · rw [Char.ofNat, dif_pos (by left; omega)]
    simp [Char.ofNatAux, Char.toNat, UInt32.toNat, UInt32.ofNat', BitVec.toNat_ofNatLt]
  · rfl

/-- `Char.toLower` is idempotent. -/
theorem toLower_idem (c : Char) : Char.toLower (Char.toLower c) = Char.toLower c := by
  rw [charEq_iff_toNat, toLower_toNat, toLower_toNat c]
  split_ifs <;> omega

/-- Lower-casing neither creates nor destroys JavaScript whitespace. -/
theorem isJsSpace_toLower (c : Char) : isJsSpace (Char.toLower c) = isJsSpace c := by
  simp only [isJsSpace, charEq_iff_toNat, toLower_toNat]
  have h32 : (' ' : Char).toNat = 32 := by decide
  have h9 : ('\t' : Char).toNat = 9 := by decide
  have h10 : ('\n' : Char).toNat = 10 := by decide
  have h13 : ('\r' : Char).toNat = 13 := by decide
  have h11 : ('\u000b' : Char).toNat = 11 := by decide
  have h12 : ('\u000c' : Char).toNat = 12 := by decide
  have h160 : ('\u00A0' : Char).toNat = 160 := by decide
  have hbom : ('\uFEFF' : Char).toNat = 65279 := by decide
  rw [h32, h9, h10, h13, h11, h12, h160, hbom]
  split_ifs with h
  · have hL : (decide (c.toNat + 32 = 32) || decide (c.toNat + 32 = 9) ||
        decide (c.toNat + 32 = 10) || decide (c.toNat + 32 = 13) ||
        decide (c.toNat + 32 = 11) || decide (c.toNat + 32 = 12) ||
        decide (c.toNat + 32 = 160) || decide (c.toNat + 32 = 65279)) = false := by
      simp only [Bool.or_eq_false_iff, decide_eq_false_iff_not]
      omega
    have hR : (decide (c.toNat = 32) || decide (c.toNat = 9) ||
        decide (c.toNat = 10) || decide (c.toNat = 13) ||
        decide (c.toNat = 11) || decide (c.toNat = 12) ||
        decide (c.toNat = 160) || decide (c.toNat = 65279)) = false := by
      simp only [Bool.or_eq_false_iff, decide_eq_false_iff_not]
      omega
    rw [hL, hR]
  · rfl

/-- The default pattern is stable under lower-casing: a character that does
not match it still does not match after `toLowerCase`. -/
theorem defaultPattern_toLower (c : Char) (h : defaultPattern c = false) :
    defaultPattern (Char.toLower c) = false := by
  have h36 : ('$' : Char).toNat = 36 := by decide
  simp only [defaultPattern, charEq_iff_toNat, h36, toLower_toNat, Bool.or_eq_false_iff,
    Bool.and_eq_false_iff, decide_eq_false_iff_not] at h ⊢
  split_ifs with hc
  · omega
  · omega

/-! ### String-pipeline facts -/

/-- Every character of a replacement result either comes from the
replacement string or failed the pattern: none of them match. -/
theorem replList_chars (pat : Char → Bool) (repl : List Char)
    (h3 : ∀ c ∈ repl, pat c = false) :
    ∀ cs, ∀ c ∈ replList pat repl cs, pat c = false := by
  intro cs
  induction cs with
  | nil =>
    intro c hc
    cases hc
  | cons a l ih =>
    intro c hc
    by_cases hpa : pat a = true
    · simp only [replList, if_pos hpa] at hc
      rcases List.mem_append.mp hc with h | h
      · exact h3 c h
      · exact ih c h
    · simp only [replList, if_neg hpa] at hc
      rcases List.mem_append.mp hc with h | h
      · obtain rfl := List.mem_singleton.mp h
        simpa using hpa
      · exact ih c h

/-- Replacing in a string with no matching character is the identity. -/
theorem replList_eq_self (pat : Char → Bool) (repl : List Char) :
    ∀ cs, (∀ c ∈ cs, pat c = false) → replList pat repl cs = cs := by
  intro cs
  induction cs with
  | nil => intro _; rfl
  | cons a l ih =>
    intro h
    have hpa : pat a = false := h a (List.mem_cons_self a l)
    simp [replList, hpa, ih (fun c hc => h c (List.mem_cons_of_mem a hc))]

/-- Trimming only removes characters. -/
theorem trimList_subset (cs : List Char) : ∀ c ∈ trimList cs, c ∈ cs := by
  intro c hc
  unfold trimList at hc
  rw [List.mem_reverse] at hc
  have hc2 : c ∈ (cs.dropWhile isJsSpace).reverse := (List.dropWhile_sublist _).subset hc
  rw [List.mem_reverse] at hc2
  exact (List.dropWhile_sublist _).subset hc2

/-- `dropWhile` is the identity on a list whose head fails the predicate. -/
theorem dropWhile_head_self {α : Type} (p : α → Bool) (l : List α)
    (h : ∀ c, l.head? = some c → p c = false) : l.dropWhile p = l := by
  cases l with
  | nil => rfl
  | cons a t =>
    have ha := h a rfl
    rw [List.dropWhile_cons, if_neg (by simp [ha])]

/-- The last character of a trimmed string is not whitespace. -/
theorem trimList_getLast (cs : List Char) :
    ∀ c, (trimList cs).getLast? = some c → isJsSpace c = false := by
  intro c hc
  unfold trimList at hc
  rw [List.getLast?_reverse] at hc
  have h1 := List.head?_dropWhile_not isJsSpace ((cs.dropWhile isJsSpace).reverse)
  rw [hc] at h1
  exact h1

/-- The first character of a trimmed string is not whitespace. -/
theorem trimList_head (cs : List Char) :
    ∀ c, (trimList cs).head? = some c → isJsSpace c = false := by
  intro c hc
  unfold trimList at hc
  rw [List.head?_reverse] at hc
  obtain ⟨u, hu⟩ := List.dropWhile_suffix (l := (cs.dropWhile isJsSpace).reverse) isJsSpace
  have h2 : ((cs.dropWhile isJsSpace).reverse).getLast? = some c := by
    rw [← hu, List.getLast?_append, hc]
    rfl
  rw [List.getLast?_reverse] at h2
  have h3 := List.head?_dropWhile_not isJsSpace cs
  rw [h2] at h3
  exact h3

/-- `trim` is idempotent. -/
theorem trimList_idem (cs : List Char) : trimList (trimList cs) = trimList cs := by
  have h1 : (trimList cs).dropWhile isJsSpace = trimList cs :=
    dropWhile_head_self _ _ (trimList_head cs)
  show ((((trimList cs).dropWhile isJsSpace).reverse).dropWhile isJsSpace).reverse = trimList cs
  rw [h1]
  have h2 : ((trimList cs).reverse).dropWhile isJsSpace = (trimList cs).reverse :=
    dropWhile_head_self _ _ (by
      intro c hc
      rw [List.head?_reverse] at hc
      exact trimList_getLast cs c hc)
  rw [h2, List.reverse_reverse]

/-- `trim` and `toLowerCase` commute. -/
theorem trimList_map_toLower (cs : List Char) :
    trimList (cs.map Char.toLower) = (trimList cs).map Char.toLower := by
  have hfun : (isJsSpace ∘ Char.toLower) = isJsSpace := by
    funext c
    exact isJsSpace_toLower c
  unfold trimList
  rw [List.dropWhile_map, hfun, ← List.map_reverse, List.dropWhile_map, hfun,
    ← List.map_reverse]

/-- Lower-casing preserves "no character matches" for a stable pattern. -/
theorem mapToLower_chars (pat : Char → Bool)
    (H4 : ∀ c, pat c = false → pat (Char.toLower c) = false) (cs : List Char)
    (h : ∀ c ∈ cs, pat c = false) : ∀ c ∈ cs.map Char.toLower, pat c = false := by
  intro c hc
  obtain ⟨a, ha, rfl⟩ := List.mem_map.mp hc
  exact H4 a (h a ha)

/-- `toLowerCase` is idempotent. -/
theorem mapToLower_idem (cs : List Char) :
    (cs.map Char.toLower).map Char.toLower = cs.map Char.toLower := by
  rw [List.map_map]
  exact List.map_congr_left (fun a _ => toLower_idem a)

/-- Character list of a packed string. -/
theorem toList_mk (l : List Char) : (String.mk l).toList = l := rfl

/-- Packing the character list of a string gives the string back. -/
theorem mk_toList (s : String) : String.mk s.toList = s := rfl

/-- Pipeline form of `sanitizeStringCore` on a non-email string. -/
theorem core_not_email (o : Opts) (s : String) (iv : Bool) (he : isEmailStr s = false) :
    sanitizeStringCore s o iv = String.mk (applyMaxLength o iv (applyLowercase o (applyTrim o
      (replList o.combinedPattern o.replaceWith.toList s.toList)))) := by
  simp [sanitizeStringCore, he]

/-- The trim stage with `trim` on. -/
theorem applyTrim_pos (o : Opts) (htr : o.stringOptions.trim = true) (l : List Char) :
    applyTrim o l = trimList l := by
  unfold applyTrim
  rw [if_pos htr]

/-- The lowercase stage with `lowercase` on. -/
theorem applyLowercase_pos (o : Opts) (hlo : o.stringOptions.lowercase = true)
    (l : List Char) : applyLowercase o l = l.map Char.toLower := by
  unfold applyLowercase
  rw [if_pos hlo]

/-- The lowercase stage with `lowercase` off. -/
theorem applyLowercase_neg (o : Opts) (hlo : o.stringOptions.lowercase = false)
    (l : List Char) : applyLowercase o l = l := by
  unfold applyLowercase
  rw [hlo]
  simp

/-- The truncation stage with an applicable `maxLength`. -/
theorem applyMaxLength_pos (o : Opts) (iv : Bool) (n : Nat)
    (h1 : o.stringOptions.maxLength = some n) (h2 : (n ≠ 0 && iv) = true) (l : List Char) :
    applyMaxLength o iv l = l.take n := by
  unfold applyMaxLength
  rw [h1]
  exact if_pos h2

/-- The trim stage only removes characters, so it preserves
"no character matches". -/
theorem applyTrim_chars (o : Opts) (pat : Char → Bool) (l : List Char)
    (h : ∀ c ∈ l, pat c = false) : ∀ c ∈ applyTrim o l, pat c = false := by
  unfold applyTrim
  split
  · exact fun c hc => h c (trimList_subset l c hc)
  · exact h

/-- The lowercase stage preserves "no character matches" for a pattern
stable under lower-casing. -/
theorem applyLowercase_chars (o : Opts) (pat : Char → Bool)
    (H4 : ∀ c, pat c = false → pat (Char.toLower c) = false) (l : List Char)
    (h : ∀ c ∈ l, pat c = false) : ∀ c ∈ applyLowercase o l, pat c = false := by
  unfold applyLowercase
  split
  · exact mapToLower_chars pat H4 l h
  · exact h

/-- The truncation stage only removes characters. -/
theorem applyMaxLength_chars (o : Opts) (iv : Bool) (pat : Char → Bool) (l : List Char)
    (h : ∀ c ∈ l, pat c = false) : ∀ c ∈ applyMaxLength o iv l, pat c = false := by
  unfold applyMaxLength
  split
  · split
    · exact fun c hc => h c (List.take_subset _ l hc)
    · exact h
  · exact h

/-- The truncation stage commutes with character maps. -/
theorem applyMaxLength_map (o : Opts) (iv : Bool) (f : Char → Char) (l : List Char) :
    applyMaxLength o iv (l.map f) = (applyMaxLength o iv l).map f := by
  unfold applyMaxLength
  split
  · split
    · rw [List.map_take]
    · rfl
  · rfl

/-- With `maxLength` unset or `0`, the truncation stage is the identity. -/
theorem applyMaxLength_id (o : Opts) (iv : Bool) (l : List Char)
    (h : o.stringOptions.maxLength = none ∨ o.stringOptions.maxLength = some 0) :
    applyMaxLength o iv l = l := by
  unfold applyMaxLength
  rcases h with h | h <;> rw [h]
  simp

/-- No character of a sanitized non-email string matches the combined
pattern, provided the replacement string is pattern-free and the pattern is
stable under lower-casing. -/
theorem sanitizeStringCore_chars (o : Opts)
    (H3 : ∀ c ∈ o.replaceWith.toList, o.combinedPattern c = false)
    (H4 : ∀ c, o.combinedPattern c = false → o.combinedPattern (Char.toLower c) = false)
    (s : String) (iv : Bool) (he : isEmailStr s = false) :
    ∀ c ∈ (sanitizeStringCore s o iv).toList, o.combinedPattern c = false := by
  rw [core_not_email o s iv he, toList_mk]
  exact applyMaxLength_chars o iv _ _ (applyLowercase_chars o _ H4 _ (applyTrim_chars o _ _
    (replList_chars _ _ H3 s.toList)))

/-- Re-sanitizing an already sanitized string is the identity, when the
replacement string is pattern-free, the pattern is stable under
lower-casing, and `trim` is not combined with a positive `maxLength`. -/
theorem sanitizeStringCore_idem (o : Opts)
    (H3 : ∀ c ∈ o.replaceWith.toList, o.combinedPattern c = false)
    (H4 : ∀ c, o.combinedPattern c = false → o.combinedPattern (Char.toLower c) = false)
    (H5 : o.stringOptions.trim = true →
      o.stringOptions.maxLength = none ∨ o.stringOptions.maxLength = some 0)
    (s : String) (iv : Bool) :
    sanitizeStringCore (sanitizeStringCore s o iv) o iv = sanitizeStringCore s o iv := by
  by_cases he : isEmailStr s = true
  · have h1 : sanitizeStringCore s o iv = s := by simp [sanitizeStringCore, he]
    rw [h1, h1]
  · have he' : isEmailStr s = false := by simpa using he
    have hch : ∀ c ∈ (sanitizeStringCore s o iv).toList, o.combinedPattern c = false :=
      sanitizeStringCore_chars o H3 H4 s iv he'
    set t := sanitizeStringCore s o iv with htdef
    by_cases het : isEmailStr t = true
    · simp [sanitizeStringCore, het]
    · have het' : isEmailStr t = false := by simpa using het
      have hrepl : replList o.combinedPattern o.replaceWith.toList t.toList = t.toList :=
        replList_eq_self _ _ _ hch
      have htls : t.toList = applyMaxLength o iv (applyLowercase o (applyTrim o
          (replList o.combinedPattern o.replaceWith.toList s.toList))) := by
        rw [htdef, core_not_email o s iv he', toList_mk]
      have hT : applyTrim o t.toList = t.toList := by
        unfold applyTrim
        split
        · next htr =>
          rw [htls, applyMaxLength_id o iv _ (H5 htr), applyTrim_pos o htr]
          by_cases hlo : o.stringOptions.lowercase = true
          · rw [applyLowercase_pos o hlo, trimList_map_toLower, trimList_idem]
          · have hlo' : o.stringOptions.lowercase = false := by simpa using hlo
            rw [applyLowercase_neg o hlo', trimList_idem]
        · rfl
      have hL : applyLowercase o t.toList = t.toList := by
        unfold applyLowercase
        split
        · next hlo =>
          rw [htls, applyLowercase_pos o hlo, applyMaxLength_map]
          exact mapToLower_idem _
        · rfl
      have hM : applyMaxLength o iv t.toList = t.toList := by
        unfold applyMaxLength
        split
        · next n heq =>
          split
          · next hcond =>
            rw [htls, applyMaxLength_pos o iv n heq hcond, List.take_take, Nat.min_self]
          · rfl
        · rfl
      rw [core_not_email o t iv het', hrepl, hT, hL, hM, mk_toList]

/-! ### Array post-processing and object insertion facts -/

/-- Deduplication only keeps elements of the input. -/
theorem dedupFirstAux_subset (l : List JSValue) :
    ∀ seen, ∀ x ∈ dedupFirstAux seen l, x ∈ l := by
  induction l with
  | nil =>
    intro seen x hx
    cases hx
  | cons a t ih =>
    intro seen x hx
    simp only [dedupFirstAux] at hx
    split at hx
    · exact List.mem_cons_of_mem a (ih seen x hx)
    · rcases List.mem_cons.mp hx with hxa | hx2
      · rw [hxa]
        exact List.mem_cons_self a t
      · exact List.mem_cons_of_mem a (ih (a :: seen) x hx2)

/-- Deduplication of a duplicate-free list disjoint from `seen` is the
identity. -/
theorem dedupFirstAux_eq_self (l : List JSValue) :
    ∀ seen, l.Nodup → (∀ x ∈ l, x ∉ seen) → dedupFirstAux seen l = l := by
  induction l with
  | nil => intro seen _ _; rfl
  | cons a t ih =>
    intro seen hnd hfresh
    have ha : a ∉ seen := hfresh a (List.mem_cons_self a t)
    have hcond : (seen.any fun y => beqV y a) = false := by
      rw [List.any_eq_false]
      intro y hy hbeq
      exact ha (by rwa [(beqV_iff y a).mp hbeq] at hy)
    rw [dedupFirstAux, hcond]
    simp only [Bool.false_eq_true, if_false]
    have hfr : ∀ x ∈ t, x ∉ a :: seen := by
      intro x hx hmem
      rcases List.mem_cons.mp hmem with rfl | hxs
      · exact (List.nodup_cons.mp hnd).1 hx
      · exact hfresh x (List.mem_cons_of_mem a hx) hxs
    rw [ih (a :: seen) (List.Nodup.of_cons hnd) hfr]

/-- Deduplication produces a duplicate-free list avoiding `seen`. -/
theorem dedupFirstAux_nodup (l : List JSValue) :
    ∀ seen, (dedupFirstAux seen l).Nodup ∧ ∀ x ∈ dedupFirstAux seen l, x ∉ seen := by
  induction l with
  | nil => intro seen; exact ⟨List.nodup_nil, fun x hx => absurd hx (List.not_mem_nil x)⟩
  | cons a t ih =>
    intro seen
    simp only [dedupFirstAux]
    split
    · exact ih seen
    · next hcond =>
      obtain ⟨hnd, havoid⟩ := ih (a :: seen)
      have hna : a ∉ seen := by
        intro hmem
        have hc2 : (seen.any fun y => beqV y a) = false := by simpa using hcond
        exact (List.any_eq_false.mp hc2) a hmem ((beqV_iff a a).mpr rfl)
      refine ⟨List.nodup_cons.mpr ⟨?_, hnd⟩, ?_⟩
      · intro hmem
        exact havoid a hmem (List.mem_cons_self a seen)
      · intro x hx
        rcases List.mem_cons.mp hx with rfl | hx2
        · exact hna
        · exact fun hmem => havoid x hx2 (List.mem_cons_of_mem a hmem)

/-- `dedupFirst` only keeps elements of the input. -/
theorem dedupFirst_subset (l : List JSValue) : ∀ x ∈ dedupFirst l, x ∈ l :=
  dedupFirstAux_subset l []

/-- `dedupFirst` produces a duplicate-free list. -/
theorem dedupFirst_nodup (l : List JSValue) : (dedupFirst l).Nodup :=
  (dedupFirstAux_nodup l []).1

/-- Deduplicating a duplicate-free list is the identity. -/
theorem dedupFirst_eq_self (l : List JSValue) (h : l.Nodup) : dedupFirst l = l :=
  dedupFirstAux_eq_self l [] h (fun x _ => List.not_mem_nil x)

/-- The array post-processing only keeps elements of the input. -/
theorem arrayPost_subset (o : Opts) (rs : List JSValue) : ∀ x ∈ arrayPost o rs, x ∈ rs := by
  intro x hx
  unfold arrayPost at hx
  split at hx
  · have hx2 := dedupFirst_subset _ x hx
    split at hx2
    · exact (List.mem_filter.mp hx2).1
    · exact hx2
  · split at hx
    · exact (List.mem_filter.mp hx).1
    · exact hx

/-- The array post-processing is idempotent. -/
theorem arrayPost_idem (o : Opts) (rs : List JSValue) :
    arrayPost o (arrayPost o rs) = arrayPost o rs := by
  by_cases hd : o.arrayOptions.distinct = true
  · by_cases hf : o.arrayOptions.filterNull = true
    · have h1 : arrayPost o rs = dedupFirst (rs.filter jsTruthy) := by
        unfold arrayPost
        rw [if_pos hd, if_pos hf]
      have htr : ∀ x ∈ arrayPost o rs, jsTruthy x = true := by
        intro x hx
        rw [h1] at hx
        exact (List.mem_filter.mp (dedupFirst_subset _ x hx)).2
      have hfe : (arrayPost o rs).filter jsTruthy = arrayPost o rs :=
        List.filter_eq_self.mpr htr
      have hnd : (arrayPost o rs).Nodup := by
        rw [h1]
        exact dedupFirst_nodup _
      conv_lhs => rw [arrayPost, if_pos hd, if_pos hf]
      rw [hfe, dedupFirst_eq_self _ hnd]
    · have hf' : o.arrayOptions.filterNull = false := by simpa using hf
      have hnd : (arrayPost o rs).Nodup := by
        unfold arrayPost
        rw [if_pos hd, hf']
        simp only [Bool.false_eq_true, if_false]
        exact dedupFirst_nodup _
      conv_lhs => rw [arrayPost, if_pos hd, hf']
      simp only [Bool.false_eq_true, if_false]
      rw [dedupFirst_eq_self _ hnd]
  · have hd' : o.arrayOptions.distinct = false := by simpa using hd
    by_cases hf : o.arrayOptions.filterNull = true
    · have h1 : arrayPost o rs = rs.filter jsTruthy := by
        unfold arrayPost
        rw [hd', if_pos hf]
        simp
      conv_lhs => rw [arrayPost, hd', if_pos hf]
      simp only [Bool.false_eq_true, if_false]
      rw [h1, List.filter_filter]
      simp
    · have hf' : o.arrayOptions.filterNull = false := by simpa using hf
      unfold arrayPost
      rw [hd', hf']
      simp [hd', hf']

/-- Keys of an insertion: an existing key keeps the key list, a fresh key is
appended. -/
theorem objInsert_keys (acc : List (String × JSValue)) (k : String) (v : JSValue) :
    (objInsert acc k v).map Prod.fst =
      if acc.any (fun p => p.1 = k) then acc.map Prod.fst else acc.map Prod.fst ++ [k] := by
  unfold objInsert
  split
  · rw [List.map_map]
    refine List.map_congr_left ?_
    intro p _
    by_cases hp : p.1 = k
    · simp [hp]
    · simp [hp]
  · simp

/-- Inserting under a fresh key appends. -/
theorem objInsert_fresh (acc : List (String × JSValue)) (k : String) (v : JSValue)
    (h : k ∉ acc.map Prod.fst) : objInsert acc k v = acc ++ [(k, v)] := by
  unfold objInsert
  split
  · next hany =>
    exfalso
    rw [List.any_eq_true] at hany
    obtain ⟨p, hp, hpk⟩ := hany
    exact h (List.mem_map.mpr ⟨p, hp, by simpa using hpk⟩)
  · rfl

/-- Insertion preserves duplicate-free key lists. -/
theorem objInsert_nodupKeys (acc : List (String × JSValue)) (k : String) (v : JSValue)
    (h : (acc.map Prod.fst).Nodup) : ((objInsert acc k v).map Prod.fst).Nodup := by
  rw [objInsert_keys]
  split
  · exact h
  · next hany =>
    have hk : k ∉ acc.map Prod.fst := by
      intro hmem
      apply hany
      rw [List.any_eq_true]
      obtain ⟨p, hp, hpk⟩ := List.mem_map.mp hmem
      exact ⟨p, hp, by simpa using hpk⟩
    simp [List.nodup_append, h, hk]

/-- Insertion preserves pair goodness when the inserted pair is good. -/
theorem objInsert_good (o : Opts) (d : Nat) (acc : List (String × JSValue)) (k : String)
    (v : JSValue) (hacc : ∀ p ∈ acc, pairGood o d p) (hkv : pairGood o d (k, v)) :
    ∀ p ∈ objInsert acc k v, pairGood o d p := by
  intro p hp
  unfold objInsert at hp
  split at hp
  · obtain ⟨q, hq, hpq⟩ := List.mem_map.mp hp
    by_cases hqk : q.1 = k
    · rw [if_pos hqk] at hpq
      rw [← hpq]
      exact hkv
    · rw [if_neg hqk] at hpq
      rw [← hpq]
      exact hacc q hq
  · rcases List.mem_append.mp hp with h1 | h1
    · exact hacc p h1
    · obtain rfl := List.mem_singleton.mp h1
      exact hkv

/-! ### Run lemmas: loops act as the identity on fixed elements -/

/-- A string none of whose characters match fails the pattern test. -/
theorem patTest_false_of (pat : Char → Bool) (cs : List Char)
    (h : ∀ c ∈ cs, pat c = false) : patTest pat cs = false := by
  unfold patTest
  rw [List.any_eq_false]
  intro x hx
  simp [h x hx]

/-- `strMatches` is false on non-strings. -/
theorem strMatches_nonstring (o : Opts) (x : JSValue) (h : isString x = false) :
    strMatches o x = false := by
  cases x <;> first
    | rfl
    | simp [isString] at h

/-- The dispatch preserves non-stringness. -/
theorem sanitize_nonstring (v : JSValue) (o : Opts) (iv : Bool) (d : Nat)
    (hv : isString v = false) :
    ∀ r, sanitizeValueE v o iv d = .ok r → isString r = false := by
  cases v with
  | vStr s => simp [isString] at hv
  | vArr elems =>
    intro r hr
    simp only [sanitizeValueE] at hr
    split at hr
    · injection hr with h
      subst h
      rfl
    · obtain ⟨rs, hrs⟩ := sanitizeElems_ok elems o (d + 1)
      rw [hrs] at hr
      injection hr with h
      subst h
      rfl
  | vObj pairs =>
    intro r hr
    simp only [sanitizeValueE] at hr
    split at hr
    · injection hr with h
      subst h
      rfl
    · obtain ⟨acc, hacc⟩ := sanitizePairs_ok pairs o (d + 1) []
      rw [hacc] at hr
      injection hr with h
      subst h
      rfl
  | vNull => intro r hr; injection hr with h; subst h; rfl
  | vUndefined => intro r hr; injection hr with h; subst h; rfl
  | vBool b => intro r hr; injection hr with h; subst h; rfl
  | vNum n => intro r hr; injection hr with h; subst h; rfl
  | vDate t => intro r hr; injection hr with h; subst h; rfl
  | vOther => intro r hr; injection hr with h; subst h; rfl

/-- The element loop is the identity on a list of fixed elements. -/
theorem elems_fixed_run (o : Opts) (d : Nat) (l : List JSValue)
    (h : ∀ x ∈ l, elemFixed o d x) : sanitizeElems l o d = .ok l := by
  induction l with
  | nil => rfl
  | cons a t ih =>
    have ha := h a (List.mem_cons_self a t)
    have hrec : (if (!o.recursive && (isPlainObject a || isArray a)) = true then
        Except.ok (ε := SanitizeErr) a else sanitizeValueE a o true d) = .ok a := by
      split
      · rfl
      · next hns =>
        rcases ha with ⟨hrf, hcon⟩ | hfix
        · exact absurd (by simp [hrf, hcon]) hns
        · exact hfix
    simp only [sanitizeElems, hrec, ih (fun x hx => h x (List.mem_cons_of_mem a hx))]

/-- The key loop preserves duplicate-free accumulator keys. -/
theorem sanitizePairs_nodupKeys (o : Opts) (pairs : List (String × JSValue)) (d : Nat) :
    ∀ acc rs, (acc.map Prod.fst).Nodup → sanitizePairs pairs o d acc = .ok rs →
      (rs.map Prod.fst).Nodup := by
  induction pairs with
  | nil =>
    intro acc rs hnd heq
    simp only [sanitizePairs] at heq
    injection heq with h
    subst h
    exact hnd
  | cons kv rest ih =>
    obtain ⟨key, val⟩ := kv
    intro acc rs hnd heq
    obtain ⟨sv, hsv⟩ := sanitizeValueE_ok val o true d
    have hstep : (if (!o.recursive && (isPlainObject val || isArray val)) = true then
        Except.ok (ε := SanitizeErr) val else sanitizeValueE val o true d) =
        .ok (if (!o.recursive && (isPlainObject val || isArray val)) = true then val
          else sv) := by
      split
      · rfl
      · exact hsv
    simp only [sanitizePairs, hstep] at heq
    split at heq
    · split at heq
      · exact ih _ rs (objInsert_nodupKeys _ _ _ hnd) heq
      · exact ih _ rs hnd heq
    · split at heq
      · exact ih _ rs hnd heq
      · split at heq
        · exact ih _ rs hnd heq
        · split at heq
          · exact ih _ rs hnd heq
          · split at heq
            · exact ih _ rs hnd heq
            · split at heq
              · split at heq
                · exact ih _ rs hnd heq
                · exact ih _ rs (objInsert_nodupKeys _ _ _ hnd) heq
              · split at heq
                · exact ih _ rs hnd heq
                · exact ih _ rs (objInsert_nodupKeys _ _ _ hnd) heq

/-- With empty key filters, the key loop re-inserts a list of good,
key-distinct pairs behind the accumulator unchanged. -/
theorem pairs_good_run (o : Opts) (H1 : o.allowedKeys = []) (H2 : o.deniedKeys = [])
    (l : List (String × JSValue)) (d : Nat) :
    ∀ acc, (∀ p ∈ l, pairGood o d p) → ((l.map Prod.fst).Nodup) →
      (∀ k ∈ l.map Prod.fst, k ∉ acc.map Prod.fst) →
      sanitizePairs l o d acc = .ok (acc ++ l) := by
  induction l with
  | nil =>
    intro acc _ _ _
    simp [sanitizePairs]
  | cons kv rest ih =>
    obtain ⟨key, val⟩ := kv
    intro acc hgood hnd hfresh
    obtain ⟨hk1, hk2, hk3, hk4, hk5, hk6⟩ := hgood (key, val) (List.mem_cons_self _ _)
    dsimp only at hk1 hk2 hk3 hk4 hk5 hk6
    have c1 : (!o.deniedKeys.isEmpty && o.deniedKeys.contains key) = false := by
      simp [H2]
    have c2 : (!o.allowedKeys.isEmpty && !o.allowedKeys.contains key) = false := by
      simp [H1]
    have c3 : (o.removeMatches && patTest o.combinedPattern key.toList) = false := by
      cases hrm : o.removeMatches
      · simp
      · have hk2x := hk2 hrm
        simp only [String.toList] at hk2x
        simp [hk2x, String.toList]
    have c4 : (o.removeEmpty && decide (sanitizeStringCore key o false = "")) = false := by
      cases hre : o.removeEmpty
      · simp
      · simp only [hk1]
        simp [hk3 hre]
    have c5 : (o.removeMatches && strMatches o val) = false := by
      cases hrm : o.removeMatches
      · simp
      · simp [hk4 hrm]
    have hstep2 : (if (!o.recursive && (isPlainObject val || isArray val)) = true then
        Except.ok (ε := SanitizeErr) val else sanitizeValueE val o true d) = .ok val := by
      split
      · rfl
      · next hns =>
        rcases hk6 with ⟨hrf, hcon⟩ | hfix
        · exact absurd (by simp [hrf, hcon]) hns
        · exact hfix
    have c7 : (o.removeEmpty && !jsTruthy val) = false := by
      cases hre : o.removeEmpty
      · simp
      · simp [hk5 hre]
    have hfreshkey : key ∉ acc.map Prod.fst :=
      hfresh key (by simp)
    have hnd2 : (rest.map Prod.fst).Nodup := by
      simp only [List.map_cons] at hnd
      exact (List.nodup_cons.mp hnd).2
    have hknotin : key ∉ rest.map Prod.fst := by
      simp only [List.map_cons] at hnd
      exact (List.nodup_cons.mp hnd).1
    have hfresh2 : ∀ k ∈ rest.map Prod.fst, k ∉ (acc ++ [(key, val)]).map Prod.fst := by
      intro k hk hmem
      rw [List.map_append] at hmem
      rcases List.mem_append.mp hmem with hmem | hmem
      · exact hfresh k (List.mem_cons_of_mem _ hk) hmem
      · simp only [List.map_cons, List.map_nil, List.mem_singleton] at hmem
        subst hmem
        exact hknotin hk
    have hins : objInsert acc (sanitizeStringCore key o false) val = acc ++ [(key, val)] := by
      rw [hk1]
      exact objInsert_fresh acc key val hfreshkey
    simp only [sanitizePairs, c1, c2, c3, c4, c5, hstep2, c7, Bool.false_eq_true, if_false,
      hins, ih (acc ++ [(key, val)]) (fun p hp => hgood p (List.mem_cons_of_mem _ hp)) hnd2
        hfresh2]
    simp

/-! ### Idempotence of the value sanitizer -/

/-- From a failed conjunction and a true left operand, the right operand is
false. -/
theorem and_false_right {a b : Bool} (h : ¬(a && b) = true) (ha : a = true) : b = false := by
  cases hb : b
  · rfl
  · exact absurd (by rw [ha, hb]; rfl) h

/-- A value satisfying `isString` is a string constructor. -/
theorem isString_exists (v : JSValue) (h : isString v = true) : ∃ s, v = .vStr s := by
  cases v <;> simp [isString] at h ⊢

/-- The pattern test fails on any sanitized key. -/
theorem patTest_core_false (o : Opts)
    (H3 : ∀ c ∈ o.replaceWith.toList, o.combinedPattern c = false)
    (H4 : ∀ c, o.combinedPattern c = false → o.combinedPattern (Char.toLower c) = false)
    (key : String) (iv : Bool)
    (hkey : patTest o.combinedPattern key.toList = false) :
    patTest o.combinedPattern (sanitizeStringCore key o iv).toList = false := by
  by_cases hem : isEmailStr key = true
  · have hk : sanitizeStringCore key o iv = key := by simp [sanitizeStringCore, hem]
    rw [hk]
    exact hkey
  · exact patTest_false_of _ _ (sanitizeStringCore_chars o H3 H4 key iv (by simpa using hem))

/-- The inserted pair is good, non-skip case. -/
theorem pairGood_insert (o : Opts)
    (H3 : ∀ c ∈ o.replaceWith.toList, o.combinedPattern c = false)
    (H4 : ∀ c, o.combinedPattern c = false → o.combinedPattern (Char.toLower c) = false)
    (H5 : o.stringOptions.trim = true →
      o.stringOptions.maxLength = none ∨ o.stringOptions.maxLength = some 0)
    (key : String) (val sv : JSValue) (d : Nat)
    (hsv : sanitizeValueE val o true d = .ok sv)
    (hrmk : ¬(o.removeMatches && patTest o.combinedPattern key.toList) = true)
    (hrek : ¬(o.removeEmpty && decide (sanitizeStringCore key o false = "")) = true)
    (hrmv : ¬(o.removeMatches && strMatches o val) = true)
    (hrev : ¬(o.removeEmpty && !jsTruthy sv) = true)
    (hfix : sanitizeValueE sv o true d = .ok sv) :
    pairGood o d (sanitizeStringCore key o false, sv) := by
  refine ⟨sanitizeStringCore_idem o H3 H4 H5 key false, ?_, ?_, ?_, ?_, Or.inr hfix⟩
  · intro hrm
    exact patTest_core_false o H3 H4 key false (and_false_right hrmk hrm)
  · intro hre
    have hd := and_false_right hrek hre
    exact decide_eq_false_iff_not.mp hd
  · intro hrm
    have hvm : strMatches o val = false := and_false_right hrmv hrm
    by_cases hvs : isString val = true
    · obtain ⟨strv, rfl⟩ := isString_exists val hvs
      have hsv2 : sv = .vStr (sanitizeStringCore strv o true) := by
        simp only [sanitizeValueE] at hsv
        injection hsv with h
        exact h.symm
      rw [hsv2]
      show patTest o.combinedPattern (sanitizeStringCore strv o true).toList = false
      exact patTest_core_false o H3 H4 strv true hvm
    · have hns : isString sv = false :=
        sanitize_nonstring val o true d (by simpa using hvs) sv hsv
      exact strMatches_nonstring o sv hns
  · intro hre
    have hd := and_false_right hrev hre
    simpa using hd

/-- The inserted pair is good, container-skip case. -/
theorem pairGood_insert_skip (o : Opts)
    (H3 : ∀ c ∈ o.replaceWith.toList, o.combinedPattern c = false)
    (H4 : ∀ c, o.combinedPattern c = false → o.combinedPattern (Char.toLower c) = false)
    (H5 : o.stringOptions.trim = true →
      o.stringOptions.maxLength = none ∨ o.stringOptions.maxLength = some 0)
    (key : String) (val : JSValue) (d : Nat)
    (hskip : (!o.recursive && (isPlainObject val || isArray val)) = true)
    (hrmk : ¬(o.removeMatches && patTest o.combinedPattern key.toList) = true)
    (hrek : ¬(o.removeEmpty && decide (sanitizeStringCore key o false = "")) = true)
    (hrmv : ¬(o.removeMatches && strMatches o val) = true)
    (hrev : ¬(o.removeEmpty && !jsTruthy val) = true) :
    pairGood o d (sanitizeStringCore key o false, val) := by
  obtain ⟨hnr, hcon⟩ := (Bool.and_eq_true _ _).mp hskip
  refine ⟨sanitizeStringCore_idem o H3 H4 H5 key false, ?_, ?_, ?_, ?_,
    Or.inl ⟨by simpa using hnr, hcon⟩⟩
  · intro hrm
    exact patTest_core_false o H3 H4 key false (and_false_right hrmk hrm)
  · intro hre
    exact decide_eq_false_iff_not.mp (and_false_right hrek hre)
  · intro hrm
    exact and_false_right hrmv hrm
  · intro hre
    simpa using and_false_right hrev hre

mutual

/-- Re-sanitizing a sanitized value is the identity under the amended
configuration class. -/
theorem sanitizeValueE_idem (o : Opts) (H1 : o.allowedKeys = []) (H2 : o.deniedKeys = [])
    (H3 : ∀ c ∈ o.replaceWith.toList, o.combinedPattern c = false)
    (H4 : ∀ c, o.combinedPattern c = false → o.combinedPattern (Char.toLower c) = false)
    (H5 : o.stringOptions.trim = true →
      o.stringOptions.maxLength = none ∨ o.stringOptions.maxLength = some 0)
    (v : JSValue) (iv : Bool) (d : Nat) :
    ∀ r, sanitizeValueE v o iv d = .ok r → sanitizeValueE r o iv d = .ok r := by
  cases v with
  | vStr s =>
    intro r hr
    simp only [sanitizeValueE] at hr
    injection hr with h
    subst h
    simp only [sanitizeValueE, sanitizeStringCore_idem o H3 H4 H5 s iv]
  | vArr elems =>
    intro r hr
    by_cases hstop : stopAtDepth o d = true
    · simp only [sanitizeValueE, if_pos hstop] at hr
      injection hr with h
      subst h
      simp only [sanitizeValueE, if_pos hstop]
    · have hstop' : stopAtDepth o d = false := by simpa using hstop
      obtain ⟨rs, hrs⟩ := sanitizeElems_ok elems o (d + 1)
      simp only [sanitizeValueE, hstop', Bool.false_eq_true, if_false, hrs] at hr
      injection hr with h
      subst h
      have hfix : ∀ x ∈ rs, elemFixed o (d + 1) x :=
        sanitizeElems_idemGood o H1 H2 H3 H4 H5 elems (d + 1) rs hrs
      have hrun : sanitizeElems (arrayPost o rs) o (d + 1) = .ok (arrayPost o rs) :=
        elems_fixed_run o (d + 1) _ (fun x hx => hfix x (arrayPost_subset o rs x hx))
      simp only [sanitizeValueE, hstop', Bool.false_eq_true, if_false, hrun, arrayPost_idem]
  | vObj pairs =>
    intro r hr
    by_cases hstop : stopAtDepth o d = true
    · simp only [sanitizeValueE, if_pos hstop] at hr
      injection hr with h
      subst h
      simp only [sanitizeValueE, if_pos hstop]
    · have hstop' : stopAtDepth o d = false := by simpa using hstop
      obtain ⟨acc, hacc⟩ := sanitizePairs_ok pairs o (d + 1) []
      simp only [sanitizeValueE, hstop', Bool.false_eq_true, if_false, hacc] at hr
      injection hr with h
      subst h
      have hgood : ∀ p ∈ acc, pairGood o (d + 1) p :=
        sanitizePairs_idemGood o H1 H2 H3 H4 H5 pairs (d + 1) [] acc hacc
          (fun p hp => absurd hp (List.not_mem_nil p))
      have hnd : (acc.map Prod.fst).Nodup :=
        sanitizePairs_nodupKeys o pairs (d + 1) [] acc (by simp) hacc
      have hrun : sanitizePairs acc o (d + 1) [] = .ok ([] ++ acc) :=
        pairs_good_run o H1 H2 acc (d + 1) [] hgood hnd (by simp)
      rw [List.nil_append] at hrun
      simp only [sanitizeValueE, hstop', Bool.false_eq_true, if_false, hrun]
  | vNull =>
    intro r hr
    injection hr with h
    subst h
    rfl
  | vUndefined =>
    intro r hr
    injection hr with h
    subst h
    rfl
  | vBool b =>
    intro r hr
    injection hr with h
    subst h
    rfl
  | vNum n =>
    intro r hr
    injection hr with h
    subst h
    rfl
  | vDate t =>
    intro r hr
    injection hr with h
    subst h
    rfl
  | vOther =>
    intro r hr
    injection hr with h
    subst h
    rfl

/-- Every element produced by the element loop is fixed. -/
theorem sanitizeElems_idemGood (o : Opts) (H1 : o.allowedKeys = []) (H2 : o.deniedKeys = [])
    (H3 : ∀ c ∈ o.replaceWith.toList, o.combinedPattern c = false)
    (H4 : ∀ c, o.combinedPattern c = false → o.combinedPattern (Char.toLower c) = false)
    (H5 : o.stringOptions.trim = true →
      o.stringOptions.maxLength = none ∨ o.stringOptions.maxLength = some 0)
    (elems : List JSValue) (d : Nat) :
    ∀ rs, sanitizeElems elems o d = .ok rs → ∀ x ∈ rs, elemFixed o d x := by
  cases elems with
  | nil =>
    intro rs hrs x hx
    simp only [sanitizeElems] at hrs
    injection hrs with h
    subst h
    cases hx
  | cons item rest =>
    intro rs hrs x hx
    obtain ⟨t, ht⟩ := sanitizeElems_ok rest o d
    obtain ⟨h1, hh⟩ := sanitizeValueE_ok item o true d
    have hstep : (if (!o.recursive && (isPlainObject item || isArray item)) = true then
        Except.ok (ε := SanitizeErr) item else sanitizeValueE item o true d) =
        .ok (if (!o.recursive && (isPlainObject item || isArray item)) = true then item
          else h1) := by
      split
      · rfl
      · exact hh
    simp only [sanitizeElems, hstep, ht] at hrs
    injection hrs with h
    subst h
    rcases List.mem_cons.mp hx with hxh | hxt
    · rw [hxh]
      split
      · next hskip =>
        obtain ⟨hnr, hcon⟩ := (Bool.and_eq_true _ _).mp hskip
        exact Or.inl ⟨by simpa using hnr, hcon⟩
      · exact Or.inr (sanitizeValueE_idem o H1 H2 H3 H4 H5 item true d h1 hh)
    · exact sanitizeElems_idemGood o H1 H2 H3 H4 H5 rest d t ht x hxt

/-- Every pair produced by the key loop from a good accumulator is good. -/
theorem sanitizePairs_idemGood (o : Opts) (H1 : o.allowedKeys = []) (H2 : o.deniedKeys = [])
    (H3 : ∀ c ∈ o.replaceWith.toList, o.combinedPattern c = false)
    (H4 : ∀ c, o.combinedPattern c = false → o.combinedPattern (Char.toLower c) = false)
    (H5 : o.stringOptions.trim = true →
      o.stringOptions.maxLength = none ∨ o.stringOptions.maxLength = some 0)
    (pairs : List (String × JSValue)) (d : Nat) :
    ∀ acc rs, sanitizePairs pairs o d acc = .ok rs → (∀ p ∈ acc, pairGood o d p) →
      ∀ p ∈ rs, pairGood o d p := by
  cases pairs with
  | nil =>
    intro acc rs heq hacc
    simp only [sanitizePairs] at heq
    injection heq with h
    subst h
    exact hacc
  | cons kv rest =>
    obtain ⟨key, val⟩ := kv
    intro acc rs heq hacc
    have c1 : (!o.deniedKeys.isEmpty && o.deniedKeys.contains key) = false := by simp [H2]
    have c2 : (!o.allowedKeys.isEmpty && !o.allowedKeys.contains key) = false := by simp [H1]
    obtain ⟨sv, hsv⟩ := sanitizeValueE_ok val o true d
    have hstep : (if (!o.recursive && (isPlainObject val || isArray val)) = true then
        Except.ok (ε := SanitizeErr) val else sanitizeValueE val o true d) =
        .ok (if (!o.recursive && (isPlainObject val || isArray val)) = true then val
          else sv) := by
      split
      · rfl
      · exact hsv
    simp only [sanitizePairs, c1, c2, Bool.false_eq_true, if_false, hstep] at heq
    split at heq
    · exact sanitizePairs_idemGood o H1 H2 H3 H4 H5 rest d acc rs heq hacc
    · next hrmk =>
      split at heq
      · exact sanitizePairs_idemGood o H1 H2 H3 H4 H5 rest d acc rs heq hacc
      · next hrek =>
        split at heq
        · exact sanitizePairs_idemGood o H1 H2 H3 H4 H5 rest d acc rs heq hacc
        · next hrmv =>
          split at heq
          · next hskip =>
            split at heq
            · exact sanitizePairs_idemGood o H1 H2 H3 H4 H5 rest d acc rs heq hacc
            · next hrev =>
              exact sanitizePairs_idemGood o H1 H2 H3 H4 H5 rest d _ rs heq
                (objInsert_good o d acc _ _ hacc
                  (pairGood_insert_skip o H3 H4 H5 key val d hskip hrmk hrek hrmv hrev))
          · next hskip =>
            split at heq
            · exact sanitizePairs_idemGood o H1 H2 H3 H4 H5 rest d acc rs heq hacc
            · next hrev =>
              exact sanitizePairs_idemGood o H1 H2 H3 H4 H5 rest d _ rs heq
                (objInsert_good o d acc _ _ hacc
                  (pairGood_insert o H3 H4 H5 key val sv d hsv hrmk hrek hrmv hrev
                    (sanitizeValueE_idem o H1 H2 H3 H4 H5 val true d sv hsv)))

end

/-- C5 (refutation): sanitization is NOT idempotent over all resolved
configurations. With `allowedKeys = ['X']` and `stringOptions.lowercase = true`,
the object `{X: 1}` sanitizes to `{x: 1}` on the first pass, but a second pass
drops the key `x`, which is not in `allowedKeys`, yielding `{}`. -/
theorem claim_C5_counterexample :
    sanitizeValueE (.vObj [("X", .vNum 1)]) optsLowerAllowedX false 0 =
      .ok (.vObj [("x", .vNum 1)]) ∧
    sanitizeValueE (.vObj [("x", .vNum 1)]) optsLowerAllowedX false 0 =
      .ok (.vObj []) := by
  constructor
  · decide
  · decide

/-- C5 (amended): sanitization is idempotent for every configuration with no
key allow/deny lists, a replacement string free of pattern characters, a
pattern stable under lower-casing, and no truncation when trimming is on: if
`sanitizeValue v` returns `r`, then `sanitizeValue r` returns `r`, at every
depth and value position. -/
theorem claim_C5 (o : Opts) (H1 : o.allowedKeys = []) (H2 : o.deniedKeys = [])
    (H3 : ∀ c ∈ o.replaceWith.toList, o.combinedPattern c = false)
    (H4 : ∀ c, o.combinedPattern c = false → o.combinedPattern (Char.toLower c) = false)
    (H5 : o.stringOptions.trim = true →
      o.stringOptions.maxLength = none ∨ o.stringOptions.maxLength = some 0)
    (v : JSValue) (iv : Bool) (d : Nat) (r : JSValue)
    (hr : sanitizeValueE v o iv d = .ok r) :
    sanitizeValueE r o iv d = .ok r :=
  sanitizeValueE_idem o H1 H2 H3 H4 H5 v iv d r hr

/-- Witness for C5 at the default configuration: `{$a: "$b"}` sanitizes to
`{a: "b"}`, and re-sanitizing `{a: "b"}` is the identity. -/
theorem claim_C5_witness :
    sanitizeValueE (.vObj [("$a", .vStr "$b")]) defaultOpts false 0 =
      .ok (.vObj [("a", .vStr "b")]) ∧
    sanitizeValueE (.vObj [("a", .vStr "b")]) defaultOpts false 0 =
      .ok (.vObj [("a", .vStr "b")]) :=
  ⟨by decide,
    claim_C5 defaultOpts rfl rfl (by decide)
      (fun c h => defaultPattern_toLower c h)
      (fun h => nomatch h)
      (.vObj [("$a", .vStr "$b")]) false 0 (.vObj [("a", .vStr "b")]) (by decide)⟩

end NoSQLSanitize
